import Mathlib

set_option maxRecDepth 16000
set_option maxHeartbeats 3000000

/-!
Verification of the token-map generation engine of code2prompt.

The definitions below are a shallow embedding of
`src/engine/token_map.rs`, `src/engine/model.rs` (the tree data model)
and the bar renderer `generate_hierarchical_bar` of
`src/ui/token_map_view.rs`.

Modelling conventions:
* Rust `usize` values are modelled as `Nat`; all subtractions in the
  source are saturating (`saturating_sub`) or guarded, matching `Nat`
  subtraction.
* `f64` percentage arithmetic is modelled exactly over `ℚ`; the source
  only divides, multiplies by `100`, takes `ceil`/`round` and compares,
  all at magnitudes where the rational value is what the spec talks
  about.
* `BTreeMap<String, TreeNode>` is modelled as a key-sorted association
  list (`childPut` inserts at the sorted position or replaces in place,
  like `BTreeMap::entry`).
* `BinaryHeap` is modelled as a list whose `popMax` removes a maximum
  element for the `NodePriority` ordering; that ordering is total and
  two `NodePriority` values comparing equal are identical, so the popped
  value is uniquely determined exactly as in the source.
* The recursions of `rebuild_filtered_tree` and `calculate_file_tokens`
  are bounded in the source only by the tree height; here they take an
  explicit fuel which `generateTokenMapWithLimit` instantiates with a
  bound (`heightFuel`) that exceeds the height of any tree built from
  the given entries, so the fuel never runs out on the pipeline's own
  trees.
-/

/-- Mirror of `EntryMetadata` in `src/engine/model.rs`. -/
structure EntryMetadata where
  is_dir : Bool
  is_symlink : Bool
deriving DecidableEq, Repr

/-- Mirror of `TreeNode` in `src/engine/model.rs`: `children` is a
`BTreeMap<String, TreeNode>` modelled as a key-sorted association list. -/
inductive TreeNode where
  | mk : Nat → List (String × TreeNode) → String → Option EntryMetadata → TreeNode

/-- Token count of a node (`TreeNode.tokens`). -/
def TreeNode.tokens : TreeNode → Nat
  | .mk t _ _ _ => t

/-- Children map of a node (`TreeNode.children`). -/
def TreeNode.children : TreeNode → List (String × TreeNode)
  | .mk _ cs _ _ => cs

/-- Stored path of a node (`TreeNode.path`). -/
def TreeNode.path : TreeNode → String
  | .mk _ _ p _ => p

/-- Metadata of a node (`TreeNode.metadata`). -/
def TreeNode.metadata : TreeNode → Option EntryMetadata
  | .mk _ _ _ m => m

/-- Mirror of `TreeNode::with_path`. -/
def TreeNode.withPath (p : String) : TreeNode := .mk 0 [] p none

/-- Mirror of `TokenMapEntry` in `src/engine/model.rs`. -/
structure TokenMapEntry where
  path : String
  name : String
  tokens : Nat
  percentage : ℚ
  depth : Nat
  is_last : Bool
  metadata : EntryMetadata
deriving DecidableEq, Repr

/-- The fields of `ProcessedEntry` (`src/engine/model.rs`) that
`generate_token_map_with_limit` reads: the relative path (after
`to_string_lossy`), the `is_file` flag and the optional token count.
The remaining fields (absolute path, code, extension, mtime) are never
read by the token-map engine. -/
structure ProcessedEntry where
  relative_path : String
  is_file : Bool
  token_count : Option Nat
deriving DecidableEq, Repr

/-- Mirror of Rust `str::split('/')`: splits at every slash, keeping
empty pieces (so `"a//b"` gives `["a", "", "b"]` and `""` gives `[""]`). -/
def splitSlashAux : List Char → List Char → List String
  | [], acc => [String.mk acc.reverse]
  | c :: rest, acc =>
    if c = '/' then String.mk acc.reverse :: splitSlashAux rest []
    else splitSlashAux rest (c :: acc)

/-- Path components of a string, Rust `path_str.split('/')`. -/
def splitSlash (s : String) : List String := splitSlashAux s.data []

/-- Lexicographic order on character lists by code point.  Rust compares
`String`s byte-wise on their UTF-8 encodings, and UTF-8 byte order
coincides with code-point order, so this is exactly Rust's `String`
ordering. -/
def charListLt : List Char → List Char → Bool
  | _, [] => false
  | [], _ :: _ => true
  | a :: as, b :: bs =>
    if a.toNat < b.toNat then true
    else if b.toNat < a.toNat then false
    else charListLt as bs

/-- Rust's `String` ordering (see `charListLt`). -/
def strLt (a b : String) : Bool := charListLt a.data b.data

/-- Lookup in the children association list (`BTreeMap::get`). -/
def childGet (cs : List (String × TreeNode)) (k : String) : Option TreeNode :=
  match cs with
  | [] => none
  | c :: rest => if c.1 = k then some c.2 else childGet rest k

/-- Insert-or-replace in the key-sorted children association list;
this is what `BTreeMap::entry(k).or_insert_with(..)` followed by
mutation of the entry amounts to. -/
def childPut (k : String) (v : TreeNode) : List (String × TreeNode) → List (String × TreeNode)
  | [] => [(k, v)]
  | c :: rest =>
    if strLt k c.1 then (k, v) :: c :: rest
    else if k = c.1 then (k, v) :: rest
    else c :: childPut k v rest

/-- Sum of the children's `tokens` fields over an association list. -/
def childSumL (cs : List (String × TreeNode)) : Nat :=
  (cs.map fun c => c.2.tokens).sum

/-- Sum of the direct children's `tokens`
(`root.children.values().map(|c| c.tokens).sum()`). -/
def childSum (t : TreeNode) : Nat := childSumL t.children

/-- Mirror of `insert_path` in `src/engine/token_map.rs`: walk/create a
node for each component; the final component becomes a file leaf whose
tokens are assigned (`=`), every intermediate component accumulates
(`+=`) the tokens and is marked as a directory. -/
def insertPath : List String → TreeNode → Nat → String → EntryMetadata → TreeNode
  | [], node, _, _, _ => node
  | c :: rest, node, tokens, parentPath, fm =>
    let fullPath := if parentPath = "" then c else parentPath ++ "/" ++ c
    let old := (childGet node.children c).getD (TreeNode.withPath fullPath)
    let newChild :=
      match rest with
      | [] => TreeNode.mk tokens old.children old.path (some fm)
      | _ :: _ =>
        insertPath rest
          (TreeNode.mk (old.tokens + tokens) old.children old.path (some ⟨true, false⟩))
          tokens fullPath fm
    TreeNode.mk node.tokens (childPut c newChild node.children) node.path node.metadata

/-- The full path `insert_path` computes for the current component. -/
def fullPathOf (pp c : String) : String := if pp = "" then c else pp ++ "/" ++ c

/-- The existing child for a component, or the fresh node
`TreeNode::with_path` creates (`entry(..).or_insert_with(..)`). -/
def oldChildOf (node : TreeNode) (c : String) (pp : String) : TreeNode :=
  (childGet node.children c).getD (TreeNode.withPath (fullPathOf pp c))

/-- The child node `insert_path` stores under the first component: the
body of `insertPath` after the map entry has been resolved
(`insertPath_cons` below proves the decomposition). -/
def insertChild (c : String) (rest : List String) (node : TreeNode) (t : Nat)
    (pp : String) (fm : EntryMetadata) : TreeNode :=
  match rest with
  | [] => TreeNode.mk t (oldChildOf node c pp).children (oldChildOf node c pp).path (some fm)
  | _ :: _ =>
    insertPath rest
      (TreeNode.mk ((oldChildOf node c pp).tokens + t) (oldChildOf node c pp).children
        (oldChildOf node c pp).path (some ⟨true, false⟩))
      t (fullPathOf pp c) fm

/-- Whether an entry participates in the map: a file entry with a
present, non-zero token count (the filter at the top of
`generate_token_map_with_limit`). -/
def entryActive (e : ProcessedEntry) : Bool :=
  e.is_file && (e.token_count.getD 0 != 0)

/-- Components of an entry's relative path. -/
def entryComponents (e : ProcessedEntry) : List String := splitSlash e.relative_path

/-- The token count an active entry contributes. -/
def entryTokens (e : ProcessedEntry) : Nat := e.token_count.getD 0

/-- One step of the entry loop of `generate_token_map_with_limit`:
insert an active entry into the tree, skip anything else. -/
def buildStep (root : TreeNode) (e : ProcessedEntry) : TreeNode :=
  if entryActive e then
    insertPath (entryComponents e) root (entryTokens e) "" ⟨false, false⟩
  else root

/-- The entry loop of `generate_token_map_with_limit`: fold all active
entries into the tree. -/
def buildRoot (entries : List ProcessedEntry) : TreeNode :=
  entries.foldl buildStep (TreeNode.withPath "")

/-- Total tokens: sum of the root's direct children. -/
def totalTokens (entries : List ProcessedEntry) : Nat := childSum (buildRoot entries)

/-- Replace a node's token field (used to finalize the root:
`root.tokens = total_tokens`). -/
def setTokens (t : TreeNode) (n : Nat) : TreeNode :=
  .mk n t.children t.path t.metadata

/-- The finalized tree: built from the entries, with the root's tokens
set to the sum of its direct children's tokens. -/
def finalRoot (entries : List ProcessedEntry) : TreeNode :=
  setTokens (buildRoot entries) (totalTokens entries)

/-- Mirror of `NodePriority` in `src/engine/token_map.rs`. -/
structure NodePriority where
  tokens : Nat
  path : String
  depth : Nat
deriving DecidableEq, Repr

/-- Rust `Ord` for `usize`. -/
def natCmp (a b : Nat) : Ordering :=
  if a < b then .lt else if b < a then .gt else .eq

/-- Rust `Ord` for `String` (lexicographic). -/
def strCmp (a b : String) : Ordering :=
  if strLt a b then .lt else if strLt b a then .gt else .eq

/-- Mirror of `NodePriority::cmp`: tokens, then reversed depth, then
path. -/
def nodeCmp (a b : NodePriority) : Ordering :=
  match natCmp a.tokens b.tokens with
  | .eq =>
    match natCmp b.depth a.depth with
    | .eq => strCmp a.path b.path
    | o => o
  | o => o

/-- One pass over a non-empty heap: return a maximum element for the
`NodePriority` order together with the remaining elements. -/
def popMaxAux : NodePriority → List NodePriority → NodePriority × List NodePriority
  | cur, [] => (cur, [])
  | cur, y :: ys =>
    if nodeCmp cur y = .lt then
      match popMaxAux y ys with
      | (m, rest) => (m, cur :: rest)
    else
      match popMaxAux cur ys with
      | (m, rest) => (m, y :: rest)

/-- Mirror of `BinaryHeap::pop`: remove and return a maximum element.
The heap is modelled as the multiset of its elements; the order is
total and `nodeCmp a b = .eq` forces `a = b`, so the popped value is
uniquely determined, exactly as in the source. -/
def popMax : List NodePriority → Option (NodePriority × List NodePriority)
  | [] => none
  | x :: xs => some (popMaxAux x xs)

/-- Whether a node's metadata marks it as a directory
(`metadata.is_some_and(|m| m.is_dir)`). -/
def metaIsDir (t : TreeNode) : Bool :=
  match t.metadata with
  | some m => m.is_dir
  | none => false

/-- Membership test on the selection set
(`allowed_nodes.contains_key(path)`; the map is only ever read through
`contains_key`, so a list of key-depth pairs is a faithful model). -/
def allowedHas (allowed : List (String × Nat)) (p : String) : Bool :=
  allowed.any fun a => a.1 == p

/-- Mirror of `find_node_by_path`'s component walk: empty components are
skipped (`if component.is_empty() { continue; }`). -/
def walkSkipEmpty : TreeNode → List String → Option TreeNode
  | node, [] => some node
  | node, c :: rest =>
    if c = "" then walkSkipEmpty node rest
    else
      match childGet node.children c with
      | some child => walkSkipEmpty child rest
      | none => none

/-- Plain component walk that does not skip empty components (used to
state what the skipping in `walkSkipEmpty` amounts to). -/
def walkNodes : TreeNode → List String → Option TreeNode
  | node, [] => some node
  | node, c :: rest =>
    match childGet node.children c with
    | some child => walkNodes child rest
    | none => none

/-- Mirror of `find_node_by_path`. -/
def findNodeByPath (root : TreeNode) (pathStr : String) : Option TreeNode :=
  if pathStr = "" then some root else walkSkipEmpty root (splitSlash pathStr)

/-- Ceiling of the integer fraction `n / d` (`d` positive), written with
euclidean division so that it evaluates; `intCeilDiv_eq` below proves it
equal to `⌈(n : ℚ) / d⌉`. -/
def intCeilDiv (n : Int) (d : Nat) : Int := -((-n) / (d : Int))

/-- Mirror of the `min_tokens` computation in `select_nodes_to_display`:
`ceil(total * min_percent / 100)` as usize, `0` when the total is `0`
(`minTokensOf_eq` below restates this as `⌈(total : ℚ) * minPercent / 100⌉`). -/
def minTokensOf (total : Nat) (minPercent : ℚ) : Nat :=
  if total = 0 then 0
  else (intCeilDiv ((total : Int) * minPercent.num) (100 * minPercent.den)).toNat

/-- The admission predicate for queueing a child:
`tokens >= min_tokens || is_dir`. -/
def candidateOk (minTok : Nat) (t : TreeNode) : Bool :=
  decide (minTok ≤ t.tokens) || metaIsDir t

/-- Seeding of the priority queue with the root's qualifying children. -/
def seedHeap (root : TreeNode) (minTok : Nat) : List NodePriority :=
  root.children.filterMap fun c =>
    if candidateOk minTok c.2 then some ⟨c.2.tokens, c.2.path, 0⟩ else none

/-- The main loop of `select_nodes_to_display`.  One fuel unit per loop
iteration; the source loop performs at most one iteration per heap
insertion, and every insertion carries the path of a distinct tree node,
so any fuel at least `1 +` the number of tree nodes reaches the loop's
own exit condition. -/
def selectLoop (root : TreeNode) (minTok budget : Nat) :
    Nat → List NodePriority → List (String × Nat) → List (String × Nat)
  | 0, _, allowed => allowed
  | fuel + 1, heap, allowed =>
    if allowed.length < budget then
      match popMax heap with
      | none => allowed
      | some (np, heap2) =>
        if allowedHas allowed np.path then
          selectLoop root minTok budget fuel heap2 allowed
        else
          let allowed2 := (np.path, np.depth) :: allowed
          match findNodeByPath root np.path with
          | some node =>
            let pushes := node.children.filterMap fun c =>
              if candidateOk minTok c.2 && !allowedHas allowed2 c.2.path then
                some ⟨c.2.tokens, c.2.path, np.depth + 1⟩
              else none
            selectLoop root minTok budget fuel (pushes ++ heap2) allowed2
          | none => selectLoop root minTok budget fuel heap2 allowed2
    else allowed

/-- Mirror of `select_nodes_to_display` (with explicit loop fuel). -/
def selectNodesToDisplay (fuel : Nat) (root : TreeNode) (total maxLines : Nat)
    (minPercent : ℚ) : List (String × Nat) :=
  let minTok := minTokensOf total minPercent
  selectLoop root minTok (maxLines - 1) fuel (seedHeap root minTok) []

/-- Stable insertion for a descending-tokens sort. -/
def insertTokDesc (x : String × TreeNode) :
    List (String × TreeNode) → List (String × TreeNode)
  | [] => [x]
  | y :: ys =>
    if y.2.tokens ≤ x.2.tokens then x :: y :: ys else y :: insertTokDesc x ys

/-- Mirror of `sort_by(|a, b| b.1.tokens.cmp(&a.1.tokens))`: a stable
sort by descending token count. -/
def sortTokDesc : List (String × TreeNode) → List (String × TreeNode)
  | [] => []
  | x :: xs => insertTokDesc x (sortTokDesc xs)

/-- The exact value of `tokens as f64 / total as f64 * 100.0`, written
with `mkRat` so that it evaluates; `ratioPct_eq` below proves it equal
to `(tokens : ℚ) / total * 100`. -/
def ratioPct (tokens total : Nat) : ℚ := mkRat ((tokens : Int) * 100) total

/-- The row `rebuild_filtered_tree` pushes for an admitted node. -/
def emitRow (node : TreeNode) (curPath : String) (depth total : Nat)
    (isLast : Bool) : TokenMapEntry :=
  { path := curPath
    name := ((splitSlash curPath).getLast?).getD curPath
    tokens := node.tokens
    percentage := if 0 < total then ratioPct node.tokens total else 0
    depth := depth
    is_last := isLast
    metadata := node.metadata.getD ⟨!node.children.isEmpty, false⟩ }

/-- Mirror of `rebuild_filtered_tree` (with explicit recursion fuel; the
source recursion is bounded by the tree height). -/
def rebuildF : Nat → TreeNode → String → List (String × Nat) → Nat → Nat → Bool →
    List TokenMapEntry
  | 0, _, _, _, _, _, _ => []
  | fuel + 1, node, curPath, allowed, depth, total, isLast =>
    let own :=
      if curPath != "" && allowedHas allowed curPath then
        [emitRow node curPath depth total isLast]
      else []
    let disp := sortTokDesc (node.children.filter fun c => allowedHas allowed c.2.path)
    own ++
      (disp.enum.map fun p =>
        rebuildF fuel p.2.2 p.2.2.path allowed (depth + 1) total
          (p.1 + 1 == disp.length)).flatten

/-- Mirror of `calculate_file_tokens`: recursively sum `tokens` at
file-metadata nodes only (with explicit recursion fuel). -/
def cftF : Nat → TreeNode → Nat
  | 0, _ => 0
  | fuel + 1, node =>
    (match node.metadata with
     | some m => if m.is_dir then 0 else node.tokens
     | none => 0) +
    ((node.children.map fun c => cftF fuel c.2).sum)

/-- Fuel that exceeds the height of any tree `buildRoot` can make from
the entries: each entry deepens the tree by at most its component
count. -/
def heightFuel (entries : List ProcessedEntry) : Nat :=
  (entries.map fun e => (entryComponents e).length).sum + 1

/-- Fuel that exceeds the iteration count of `selectLoop`: the loop pops
one element per iteration and every pushed element carries the path of
a distinct tree node. -/
def pipelineFuel (entries : List ProcessedEntry) (maxLines : Nat) : Nat :=
  2 * (entries.map fun e => (entryComponents e).length).sum + maxLines + 4

/-- The `displayed_tokens` sum: tokens of emitted non-directory rows. -/
def displayedTokensOf (rows : List TokenMapEntry) : Nat :=
  (rows.map fun e => if e.metadata.is_dir then 0 else e.tokens).sum

/-- The selection set computed by the pipeline for resolved settings. -/
def tmAllowed (entries : List ProcessedEntry) (maxLines : Nat) (minPercent : ℚ) :
    List (String × Nat) :=
  selectNodesToDisplay (pipelineFuel entries maxLines) (finalRoot entries)
    (totalTokens entries) maxLines minPercent

/-- The rows emitted by `rebuild_filtered_tree` for resolved settings. -/
def tmBaseRows (entries : List ProcessedEntry) (maxLines : Nat) (minPercent : ℚ) :
    List TokenMapEntry :=
  rebuildF (heightFuel entries) (finalRoot entries) ""
    (tmAllowed entries maxLines minPercent) 0 (totalTokens entries) true

/-- The pipeline's `displayed_tokens` value. -/
def tmDisplayed (entries : List ProcessedEntry) (maxLines : Nat) (minPercent : ℚ) : Nat :=
  displayedTokensOf (tmBaseRows entries maxLines minPercent)

/-- The pipeline's `hidden_tokens` value
(`calculate_file_tokens(&root).saturating_sub(displayed_tokens)`). -/
def tmHidden (entries : List ProcessedEntry) (maxLines : Nat) (minPercent : ℚ) : Nat :=
  cftF (heightFuel entries) (finalRoot entries) - tmDisplayed entries maxLines minPercent

/-- The synthetic trailing aggregate row. -/
def otherRow (hidden total : Nat) : TokenMapEntry :=
  { path := "(other files)"
    name := "(other files)"
    tokens := hidden
    percentage := ratioPct hidden total
    depth := 0
    is_last := true
    metadata := ⟨false, false⟩ }

/-- Mirror of `generate_token_map_with_limit` with resolved settings. -/
def generateCore (entries : List ProcessedEntry) (maxLines : Nat) (minPercent : ℚ) :
    List TokenMapEntry :=
  tmBaseRows entries maxLines minPercent ++
    (if 0 < tmHidden entries maxLines minPercent ∧ 0 < totalTokens entries then
      [otherRow (tmHidden entries maxLines minPercent) (totalTokens entries)]
    else [])

/-- Mirror of `generate_token_map_with_limit` (defaults: 20 lines,
0.1 percent). -/
def generateTokenMapWithLimit (entries : List ProcessedEntry)
    (maxLines : Option Nat) (minPercent : Option ℚ) : List TokenMapEntry :=
  generateCore entries (maxLines.getD 20) (minPercent.getD (1 / 10))

/-- The shade character of `generate_hierarchical_bar`:
`match depth.max(1) { 1 => ' ', 2 => '░', 3 => '▒', _ => '▓' }`. -/
def shadeOf (depth : Nat) : Char :=
  let d := max depth 1
  if d = 1 then ' ' else if d = 2 then '░' else if d = 3 then '▒' else '▓'

/-- Mirror of `((percentage / 100.0) * bar_width as f64).round() as usize`,
written with euclidean division so that it evaluates; `filledOf_eq`
below proves it equal to `(round (percentage / 100 * barWidth)).toNat`. -/
def filledOf (percentage : ℚ) (barWidth : Nat) : Nat :=
  ((2 * (percentage.num * barWidth) + (100 * percentage.den : Int)) /
    ((2 * (100 * percentage.den) : Nat) : Int)).toNat

/-- Mirror of `generate_hierarchical_bar` in `src/ui/token_map_view.rs`.
The `for i in 0..bar_width` push loop is rendered as a map over
`List.range bar_width`. -/
def generateHierarchicalBar (barWidth : Nat) (parentBar : String)
    (percentage : ℚ) (depth : Nat) : String :=
  if barWidth = 0 then ""
  else
    let filled := filledOf percentage barWidth
    let shade := shadeOf depth
    let parentChars := parentBar.data
    String.mk ((List.range barWidth).map fun i =>
      if i < filled then '█'
      else
        match parentChars.get? i with
        | some pc => if pc = '█' then shade else pc
        | none => ' ')

/-- Plain walk into the children map along exact components (no
skipping); used to observe concrete trees in statements. -/
def nodeAtPath : List (String × TreeNode) → List String → Option TreeNode
  | _, [] => none
  | cs, [c] => childGet cs c
  | cs, c :: rest =>
    match childGet cs c with
    | some ch => nodeAtPath ch.children rest
    | none => none

/-- Token count of the file node at an exact component path, if that
path denotes a node carrying file metadata. -/
def leafTokensAt (cs : List (String × TreeNode)) (p : List String) : Option Nat :=
  match nodeAtPath cs p with
  | some n => if n.metadata = some ⟨false, false⟩ then some n.tokens else none
  | none => none

/-- One component list is an initial segment of another (this includes
equality).  Two file paths overlap in the tree exactly when one's
component list is an initial segment of the other's. -/
def initSeg : List String → List String → Bool
  | [], _ => true
  | _ :: _, [] => false
  | a :: as, b :: bs => a == b && initSeg as bs

/-- Well-formed entry lists: the relative paths of any two active
entries are component-wise non-overlapping (in particular pairwise
distinct).  Real directory listings satisfy this: a file's path is
never a proper path-prefix of another file's path. -/
def WFEntries (entries : List ProcessedEntry) : Prop :=
  entries.Pairwise fun a b =>
    entryActive a → entryActive b →
      initSeg (entryComponents a) (entryComponents b) = false ∧
      initSeg (entryComponents b) (entryComponents a) = false

/-- Sum of the token counts of the active entries. -/
def activeTokenSum (entries : List ProcessedEntry) : Nat :=
  (entries.map fun e => if entryActive e then entryTokens e else 0).sum

/-- Keys of a children association list are strictly sorted (the
`BTreeMap` invariant). -/
def sortedKeys (cs : List (String × TreeNode)) : Prop :=
  cs.Pairwise fun a b => strLt a.1 b.1 = true

/-- The structural invariant of a constructed (non-root) node: a file
node is a leaf carrying exactly its assigned count; a directory node has
children, and its tokens are exactly the sum of its children's tokens. -/
inductive GoodNode : TreeNode → Prop where
  | file : ∀ (tok : Nat) (p : String),
      GoodNode (.mk tok [] p (some ⟨false, false⟩))
  | dir : ∀ (tok : Nat) (cs : List (String × TreeNode)) (p : String),
      cs ≠ [] → tok = childSumL cs → sortedKeys cs → (∀ c ∈ cs, GoodNode c.2) →
      GoodNode (.mk tok cs p (some ⟨true, false⟩))

/-- Every node strictly below the root carries metadata. -/
inductive MetaSome : TreeNode → Prop where
  | mk : ∀ (tok : Nat) (cs : List (String × TreeNode)) (p : String) (m : EntryMetadata),
      (∀ c ∈ cs, MetaSome c.2) → MetaSome (.mk tok cs p (some m))

/-- Insertion into a node is unobstructed: the walk to the final
component passes only through directory nodes and ends at a vacant
slot.  This is the shape of the tree `insert_path` meets when the
inserted path does not overlap any previously inserted file path. -/
def freeAtL : List (String × TreeNode) → List String → Prop
  | cs, [c] => childGet cs c = none
  | cs, c :: rest =>
    match childGet cs c with
    | none => True
    | some ch => ch.metadata = some ⟨true, false⟩ ∧ freeAtL ch.children rest
  | _, [] => True

/-- The entry set of the spec's concrete scenario 2: fifty distinct
single-component files of 10 tokens each. -/
def scenarioEntries : List ProcessedEntry :=
  (List.range 50).map fun i =>
    { relative_path := "f" ++ toString (10 + i), is_file := true, token_count := some 10 }

/-! ### Order lemmas for the string comparison -/

theorem charToNat_inj {a b : Char} (h : a.toNat = b.toNat) : a = b :=
  Char.eq_of_val_eq (UInt32.toNat.inj h)

theorem charListLt_irrefl : ∀ l : List Char, charListLt l l = false
  | [] => rfl
  | a :: as => by simp [charListLt, charListLt_irrefl as]

theorem charListLt_asymm : ∀ {l m : List Char},
    charListLt l m = true → charListLt m l = false
  | _, [], h => by simp [charListLt] at h
  | [], _ :: _, _ => rfl
  | a :: as, b :: bs, h => by
    simp only [charListLt] at h ⊢
    by_cases hab : a.toNat < b.toNat
    · have : ¬ b.toNat < a.toNat := by omega
      simp [hab, this]
    · by_cases hba : b.toNat < a.toNat
      · simp [hab, hba] at h
      · simp only [hab, hba, if_false] at h ⊢
        simpa using charListLt_asymm h

theorem charListLt_connex : ∀ {l m : List Char},
    charListLt l m = false → charListLt m l = false → l = m
  | [], [], _, _ => rfl
  | [], _ :: _, h, _ => by simp [charListLt] at h
  | _ :: _, [], _, h => by simp [charListLt] at h
  | a :: as, b :: bs, h, h2 => by
    simp only [charListLt] at h h2
    by_cases hab : a.toNat < b.toNat
    · simp [hab] at h
    · by_cases hba : b.toNat < a.toNat
      · simp [hba, hab] at h2
      · simp only [hab, hba, if_false] at h h2
        have hc : a = b := charToNat_inj (by omega)
        have := charListLt_connex h h2
        rw [hc, this]

theorem charListLt_trans : ∀ {l m k : List Char},
    charListLt l m = true → charListLt m k = true → charListLt l k = true
  | _, _, [], _, h2 => by simp [charListLt] at h2
  | [], [], _ :: _, h1, _ => by simp [charListLt] at h1
  | [], _ :: _, _ :: _, _, _ => rfl
  | _ :: _, [], _, h1, _ => by simp [charListLt] at h1
  | a :: as, b :: bs, c :: cs, h1, h2 => by
    simp only [charListLt] at h1 h2 ⊢
    by_cases hab : a.toNat < b.toNat <;> by_cases hbc : b.toNat < c.toNat
    · have : a.toNat < c.toNat := by omega
      simp [this]
    · by_cases hcb : c.toNat < b.toNat
      · simp [hab, hbc, hcb] at h2
      · have hbceq : b = c := charToNat_inj (by omega)
        subst hbceq
        simp [hab]
    · by_cases hba : b.toNat < a.toNat
      · simp [hab, hba] at h1
      · have habeq : a = b := charToNat_inj (by omega)
        subst habeq
        simp [hbc]
    · by_cases hba : b.toNat < a.toNat
      · simp [hab, hba] at h1
      · by_cases hcb : c.toNat < b.toNat
        · simp [hbc, hcb] at h2
        · simp only [hab, hba, if_false] at h1
          simp only [hbc, hcb, if_false] at h2
          have : ¬ a.toNat < c.toNat := by omega
          have h2c : ¬ c.toNat < a.toNat := by omega
          simp only [this, h2c, if_false]
          exact charListLt_trans h1 h2

theorem strLt_irrefl (a : String) : strLt a a = false := charListLt_irrefl a.data

theorem strLt_asymm {a b : String} (h : strLt a b = true) : strLt b a = false :=
  charListLt_asymm h

theorem strLt_connex {a b : String} (h : strLt a b = false)
    (h2 : strLt b a = false) : a = b := by
  have hd : a.data = b.data := charListLt_connex h h2
  cases a; cases b; simp_all

theorem strLt_trans {a b c : String} (h1 : strLt a b = true)
    (h2 : strLt b c = true) : strLt a c = true :=
  charListLt_trans h1 h2

/-! ### Lemmas about the children association list -/

theorem childGet_some_mem : ∀ {cs : List (String × TreeNode)} {k : String}
    {v : TreeNode}, childGet cs k = some v → (k, v) ∈ cs := by
  intro cs
  induction cs with
  | nil => intro k v h; simp [childGet] at h
  | cons c rest ih =>
    intro k v h
    simp only [childGet] at h
    by_cases hc : c.1 = k
    · simp only [hc, if_true] at h
      cases h
      have hkc : (k, c.2) = c := by rw [← hc]
      rw [hkc]
      exact List.mem_cons_self _ _
    · simp only [hc, if_false] at h
      exact List.mem_cons_of_mem _ (ih h)

theorem childGet_childPut (k k2 : String) (v : TreeNode) :
    ∀ cs : List (String × TreeNode),
      childGet (childPut k v cs) k2 = if k2 = k then some v else childGet cs k2 := by
  intro cs
  induction cs with
  | nil =>
    by_cases h : k2 = k
    · subst h; simp [childPut, childGet]
    · have hne : ¬ k = k2 := fun hk => h hk.symm
      simp [childPut, childGet, h, hne]
  | cons c rest ih =>
    simp only [childPut]
    by_cases h1 : strLt k c.1 = true
    · rw [if_pos h1]
      by_cases h : k2 = k
      · subst h; simp [childGet]
      · have hne : ¬ k = k2 := fun hk => h hk.symm
        simp [childGet, h, hne]
    · rw [if_neg h1]
      by_cases h2 : k = c.1
      · rw [if_pos h2]
        by_cases h : k2 = k
        · subst h; simp [childGet, h2]
        · have hne : ¬ k = k2 := fun hk => h hk.symm
          have hne2 : ¬ c.1 = k2 := by rw [← h2]; exact hne
          have hne3 : ¬ k2 = c.1 := fun hk => hne2 hk.symm
          simp [childGet, hne, h, hne2, hne3]
      · rw [if_neg h2]
        by_cases h3 : c.1 = k2
        · have hk2 : ¬ k2 = k := by
            intro hk
            exact h2 (by rw [← hk, h3])
          simp [childGet, h3, hk2]
        · simp [childGet, h3, ih]

theorem mem_childPut {x : String × TreeNode} {k : String} {v : TreeNode} :
    ∀ {cs : List (String × TreeNode)}, x ∈ childPut k v cs → x = (k, v) ∨ x ∈ cs := by
  intro cs
  induction cs with
  | nil => intro h; simp [childPut] at h; left; exact h
  | cons c rest ih =>
    intro h
    simp only [childPut] at h
    by_cases h1 : strLt k c.1 = true
    · rw [if_pos h1] at h
      rcases List.mem_cons.mp h with h | h
      · left; exact h
      · right; exact h
    · rw [if_neg h1] at h
      by_cases h2 : k = c.1
      · rw [if_pos h2] at h
        rcases List.mem_cons.mp h with h | h
        · left; exact h
        · right; exact List.mem_cons_of_mem _ h
      · rw [if_neg h2] at h
        rcases List.mem_cons.mp h with h | h
        · right; rw [h]; exact List.mem_cons_self _ _
        · rcases ih h with h | h
          · left; exact h
          · right; exact List.mem_cons_of_mem _ h

theorem childPut_ne_nil (k : String) (v : TreeNode) :
    ∀ cs : List (String × TreeNode), childPut k v cs ≠ [] := by
  intro cs
  cases cs with
  | nil => simp [childPut]
  | cons c rest =>
    simp only [childPut]
    by_cases h1 : strLt k c.1 = true
    · rw [if_pos h1]; simp
    · rw [if_neg h1]
      by_cases h2 : k = c.1
      · rw [if_pos h2]; simp
      · rw [if_neg h2]; simp

theorem childSumL_childPut_new {k : String} {v : TreeNode} :
    ∀ {cs : List (String × TreeNode)}, childGet cs k = none →
      childSumL (childPut k v cs) = childSumL cs + v.tokens := by
  intro cs
  induction cs with
  | nil => intro _; simp [childPut, childSumL]
  | cons c rest ih =>
    intro h
    simp only [childGet] at h
    by_cases hc : c.1 = k
    · simp [hc] at h
    · rw [if_neg hc] at h
      simp only [childPut]
      by_cases h1 : strLt k c.1 = true
      · rw [if_pos h1]
        simp only [childSumL, List.map_cons, List.sum_cons]
        omega
      · have h2 : ¬ k = c.1 := fun hk => hc hk.symm
        rw [if_neg h1, if_neg h2]
        simp only [childSumL, List.map_cons, List.sum_cons] at ih ⊢
        rw [ih h]
        omega

theorem childSumL_childPut_replace {k : String} {v old : TreeNode} :
    ∀ {cs : List (String × TreeNode)}, sortedKeys cs → childGet cs k = some old →
      childSumL (childPut k v cs) + old.tokens = childSumL cs + v.tokens := by
  intro cs
  induction cs with
  | nil => intro _ h; simp [childGet] at h
  | cons c rest ih =>
    intro hs h
    simp only [childGet] at h
    have hs2 := (List.pairwise_cons.mp hs).2
    have hhead := (List.pairwise_cons.mp hs).1
    by_cases hc : c.1 = k
    · rw [if_pos hc] at h
      cases h
      simp only [childPut]
      have h1 : ¬ strLt k c.1 = true := by rw [hc, strLt_irrefl]; simp
      have h2 : k = c.1 := hc.symm
      rw [if_neg h1, if_pos h2]
      simp only [childSumL, List.map_cons, List.sum_cons]
      omega
    · rw [if_neg hc] at h
      have hmem := childGet_some_mem h
      have hlt : strLt c.1 k = true := hhead _ hmem
      simp only [childPut]
      have h1 : ¬ strLt k c.1 = true := by rw [strLt_asymm hlt]; simp
      have h2 : ¬ k = c.1 := fun hk => hc hk.symm
      rw [if_neg h1, if_neg h2]
      simp only [childSumL, List.map_cons, List.sum_cons] at ih ⊢
      have := ih hs2 h
      omega

theorem sortedKeys_childPut {k : String} {v : TreeNode} :
    ∀ {cs : List (String × TreeNode)}, sortedKeys cs → sortedKeys (childPut k v cs) := by
  intro cs
  induction cs with
  | nil => intro _; simp [childPut, sortedKeys]
  | cons c rest ih =>
    intro hs
    have hhead := (List.pairwise_cons.mp hs).1
    have hs2 := (List.pairwise_cons.mp hs).2
    simp only [childPut]
    by_cases h1 : strLt k c.1 = true
    · rw [if_pos h1]
      refine List.pairwise_cons.mpr ⟨?_, hs⟩
      intro x hx
      rcases List.mem_cons.mp hx with h | h
      · rw [h]; exact h1
      · exact strLt_trans h1 (hhead _ h)
    · rw [if_neg h1]
      by_cases h2 : k = c.1
      · rw [if_pos h2]
        refine List.pairwise_cons.mpr ⟨?_, hs2⟩
        intro x hx
        rw [h2]
        exact hhead _ hx
      · rw [if_neg h2]
        refine List.pairwise_cons.mpr ⟨?_, ih hs2⟩
        intro x hx
        rcases mem_childPut hx with h | h
        · rw [h]
          have h3 : strLt c.1 k ≠ false := by
            intro hf
            exact h2 (strLt_connex (by simpa using h1) hf)
          simpa using h3
        · exact hhead _ h

/-! ### Lemmas about the descending stable sort -/

theorem mem_insertTokDesc {x y : String × TreeNode} :
    ∀ {l : List (String × TreeNode)}, x ∈ insertTokDesc y l → x = y ∨ x ∈ l := by
  intro l
  induction l with
  | nil => intro h; simp [insertTokDesc] at h; left; exact h
  | cons c rest ih =>
    intro h
    simp only [insertTokDesc] at h
    by_cases hc : c.2.tokens ≤ y.2.tokens
    · rw [if_pos hc] at h
      rcases List.mem_cons.mp h with h | h
      · left; exact h
      · right; exact h
    · rw [if_neg hc] at h
      rcases List.mem_cons.mp h with h | h
      · right; rw [h]; exact List.mem_cons_self _ _
      · rcases ih h with h | h
        · left; exact h
        · right; exact List.mem_cons_of_mem _ h

theorem mem_sortTokDesc {x : String × TreeNode} :
    ∀ {l : List (String × TreeNode)}, x ∈ sortTokDesc l → x ∈ l := by
  intro l
  induction l with
  | nil => intro h; simp [sortTokDesc] at h
  | cons c rest ih =>
    intro h
    simp only [sortTokDesc] at h
    rcases mem_insertTokDesc h with h | h
    · rw [h]; exact List.mem_cons_self _ _
    · exact List.mem_cons_of_mem _ (ih h)

theorem sum_map_insertTokDesc (f : String × TreeNode → Nat) (y : String × TreeNode) :
    ∀ l : List (String × TreeNode),
      ((insertTokDesc y l).map f).sum = f y + (l.map f).sum := by
  intro l
  induction l with
  | nil => simp [insertTokDesc]
  | cons c rest ih =>
    simp only [insertTokDesc]
    by_cases hc : c.2.tokens ≤ y.2.tokens
    · rw [if_pos hc]; simp
    · rw [if_neg hc]
      simp only [List.map_cons, List.sum_cons, ih]
      omega

theorem sum_map_sortTokDesc (f : String × TreeNode → Nat) :
    ∀ l : List (String × TreeNode), ((sortTokDesc l).map f).sum = (l.map f).sum := by
  intro l
  induction l with
  | nil => rfl
  | cons c rest ih =>
    simp only [sortTokDesc, sum_map_insertTokDesc, ih, List.map_cons, List.sum_cons]

/-! ### The executable arithmetic agrees with the specification forms -/

theorem ratioPct_eq (t total : Nat) :
    ratioPct t total = (t : ℚ) / (total : ℚ) * 100 := by
  rw [ratioPct, Rat.mkRat_eq_div]
  push_cast
  ring

theorem intCeilDiv_eq (n : Int) (d : Nat) :
    intCeilDiv n d = ⌈(n : ℚ) / (d : ℚ)⌉ := by
  rw [intCeilDiv]
  have hceil : (⌈(n : ℚ) / (d : ℚ)⌉ : ℤ) = -⌊-((n : ℚ) / (d : ℚ))⌋ := by
    rw [← Int.ceil_neg, neg_neg]
  have hneg : -((n : ℚ) / (d : ℚ)) = ((-n : ℤ) : ℚ) / ((d : ℕ) : ℚ) := by
    push_cast
    ring
  rw [hceil, hneg, Rat.floor_intCast_div_natCast]

theorem minTokensOf_eq (total : Nat) (mp : ℚ) :
    minTokensOf total mp =
      if total = 0 then 0 else (⌈(total : ℚ) * mp / 100⌉).toNat := by
  rw [minTokensOf]
  by_cases h : total = 0
  · simp [h]
  · rw [if_neg h, if_neg h]
    have hden : (mp.den : ℚ) ≠ 0 := by
      exact_mod_cast mp.den_nz
    have hx : (total : ℚ) * mp / 100 =
        (((total : Int) * mp.num : ℤ) : ℚ) / ((100 * mp.den : ℕ) : ℚ) := by
      conv_lhs => rw [← Rat.num_div_den mp]
      push_cast
      rw [div_eq_div_iff (by positivity) (by positivity)]
      field_simp
      ring
    rw [hx, intCeilDiv_eq]
theorem filledOf_eq (p : ℚ) (W : Nat) :
    filledOf p W = (round (p / 100 * (W : ℚ))).toNat := by
  rw [filledOf, round_eq]
  have hden : (p.den : ℚ) ≠ 0 := by exact_mod_cast p.den_nz
  have hx : p / 100 * (W : ℚ) + 1 / 2 =
      ((2 * (p.num * W) + (100 * p.den : Int) : ℤ) : ℚ) /
        (((2 * (100 * p.den) : Nat) : ℕ) : ℚ) := by
    conv_lhs => rw [← Rat.num_div_den p]
    push_cast
    field_simp
    ring
  rw [hx, Rat.floor_intCast_div_natCast]

/-! ### The selection loop never exceeds its budget -/

theorem selectLoop_length_le (root : TreeNode) (minTok budget : Nat) :
    ∀ (fuel : Nat) (heap : List NodePriority) (allowed : List (String × Nat)),
      allowed.length ≤ budget →
      (selectLoop root minTok budget fuel heap allowed).length ≤ budget := by
  intro fuel
  induction fuel with
  | zero => intro heap allowed h; exact h
  | succ n ih =>
    intro heap allowed h
    simp only [selectLoop]
    split
    case isTrue hb =>
      cases hpop : popMax heap with
      | none => exact h
      | some pr =>
        simp only
        split
        · exact ih _ _ h
        · have hlen : ((pr.1.path, pr.1.depth) :: allowed).length ≤ budget := by
            simp only [List.length_cons]
            omega
          cases hfind : findNodeByPath root pr.1.path with
          | some node => exact ih _ _ hlen
          | none => exact ih _ _ hlen
    case isFalse hb => exact h

/-! ### The renderer depends on the selection set only through membership -/

theorem rebuildF_allowed_congr :
    ∀ (fuel : Nat) (node : TreeNode) (curPath : String)
      (a1 a2 : List (String × Nat)) (depth total : Nat) (isLast : Bool),
      (∀ p, allowedHas a1 p = allowedHas a2 p) →
      rebuildF fuel node curPath a1 depth total isLast =
        rebuildF fuel node curPath a2 depth total isLast := by
  intro fuel
  induction fuel with
  | zero => intros; rfl
  | succ n ih =>
    intro node curPath a1 a2 depth total isLast hp
    simp only [rebuildF]
    have hfilter : (node.children.filter fun c => allowedHas a1 c.2.path) =
        (node.children.filter fun c => allowedHas a2 c.2.path) := by
      apply List.filter_congr
      intro c _
      exact hp c.2.path
    rw [hp curPath, hfilter]
    congr 1
    apply congrArg List.flatten
    apply List.map_congr_left
    intro p hp2
    exact ih _ _ _ _ _ _ _ hp

/-! ### Characterization of the priority order and of heap popping -/

theorem natCmp_lt_iff (a b : Nat) : natCmp a b = .lt ↔ a < b := by
  unfold natCmp
  rcases Nat.lt_trichotomy a b with h | h | h
  · simp [h]
  · simp [h, Nat.lt_irrefl]
  · have h2 : ¬ a < b := by omega
    simp [h, h2]

theorem natCmp_gt_iff (a b : Nat) : natCmp a b = .gt ↔ b < a := by
  unfold natCmp
  rcases Nat.lt_trichotomy a b with h | h | h
  · have h2 : ¬ b < a := by omega
    simp [h, h2]
  · simp [h, Nat.lt_irrefl]
  · have h2 : ¬ a < b := by omega
    simp [h, h2]

theorem natCmp_eq_iff (a b : Nat) : natCmp a b = .eq ↔ a = b := by
  unfold natCmp
  rcases Nat.lt_trichotomy a b with h | h | h
  · simp [h]; omega
  · simp [h, Nat.lt_irrefl]
  · have h2 : ¬ a < b := by omega
    simp [h, h2]; omega

theorem strCmp_lt_iff (a b : String) : strCmp a b = .lt ↔ strLt a b = true := by
  unfold strCmp
  by_cases h : strLt a b = true
  · simp [h]
  · simp only [h, Bool.false_eq_true, if_false]
    by_cases h2 : strLt b a = true <;> simp [h2, h]

theorem strCmp_gt_iff (a b : String) : strCmp a b = .gt ↔ strLt b a = true := by
  unfold strCmp
  by_cases h : strLt a b = true
  · have h2 : strLt b a = false := strLt_asymm h
    simp [h, h2]
  · by_cases h2 : strLt b a = true <;> simp [h, h2]

theorem strCmp_eq_iff (a b : String) : strCmp a b = .eq ↔ a = b := by
  unfold strCmp
  by_cases h : strLt a b = true
  · constructor
    · intro hc; simp [h] at hc
    · intro hc
      subst hc
      rw [strLt_irrefl] at h
      simp at h
  · by_cases h2 : strLt b a = true
    · simp only [h, Bool.false_eq_true, if_false, h2, if_true]
      constructor
      · intro hc; simp at hc
      · intro hc
        subst hc
        rw [strLt_irrefl] at h2
        simp at h2
    · simp only [h, Bool.false_eq_true, if_false, h2]
      have := strLt_connex (by simpa using h) (by simpa using h2)
      simp [this]

theorem nodeCmp_lt_iff (a b : NodePriority) : nodeCmp a b = .lt ↔
    (a.tokens < b.tokens ∨ (a.tokens = b.tokens ∧ b.depth < a.depth) ∨
      (a.tokens = b.tokens ∧ a.depth = b.depth ∧ strLt a.path b.path = true)) := by
  unfold nodeCmp
  rcases Nat.lt_trichotomy a.tokens b.tokens with h | h | h
  · rw [(natCmp_lt_iff _ _).mpr h]
    simp
    omega
  · rw [(natCmp_eq_iff _ _).mpr h]
    simp only
    rcases Nat.lt_trichotomy b.depth a.depth with h2 | h2 | h2
    · rw [(natCmp_lt_iff _ _).mpr h2]
      simp
      omega
    · rw [(natCmp_eq_iff _ _).mpr h2]
      simp only
      constructor
      · intro hc
        right; right
        exact ⟨h, h2.symm, (strCmp_lt_iff _ _).mp hc⟩
      · intro hc
        rcases hc with hc | hc | hc
        · omega
        · omega
        · exact (strCmp_lt_iff _ _).mpr hc.2.2
    · rw [(natCmp_gt_iff _ _).mpr h2]
      simp
      omega
  · rw [(natCmp_gt_iff _ _).mpr h]
    simp
    omega

theorem nodeCmp_gt_iff (a b : NodePriority) : nodeCmp a b = .gt ↔
    (b.tokens < a.tokens ∨ (a.tokens = b.tokens ∧ a.depth < b.depth) ∨
      (a.tokens = b.tokens ∧ a.depth = b.depth ∧ strLt b.path a.path = true)) := by
  unfold nodeCmp
  rcases Nat.lt_trichotomy a.tokens b.tokens with h | h | h
  · rw [(natCmp_lt_iff _ _).mpr h]
    simp
    omega
  · rw [(natCmp_eq_iff _ _).mpr h]
    simp only
    rcases Nat.lt_trichotomy b.depth a.depth with h2 | h2 | h2
    · rw [(natCmp_lt_iff _ _).mpr h2]
      simp
      omega
    · rw [(natCmp_eq_iff _ _).mpr h2]
      simp only
      constructor
      · intro hc
        right; right
        exact ⟨h, h2.symm, (strCmp_gt_iff _ _).mp hc⟩
      · intro hc
        rcases hc with hc | hc | hc
        · omega
        · omega
        · exact (strCmp_gt_iff _ _).mpr hc.2.2
    · rw [(natCmp_gt_iff _ _).mpr h2]
      simp
      omega
  · rw [(natCmp_gt_iff _ _).mpr h]
    simp
    omega

theorem nodeCmp_eq_iff (a b : NodePriority) : nodeCmp a b = .eq ↔ a = b := by
  unfold nodeCmp
  rcases Nat.lt_trichotomy a.tokens b.tokens with h | h | h
  · rw [(natCmp_lt_iff _ _).mpr h]
    simp only
    constructor
    · intro hc; simp at hc
    · intro hc; subst hc; omega
  · rw [(natCmp_eq_iff _ _).mpr h]
    simp only
    rcases Nat.lt_trichotomy b.depth a.depth with h2 | h2 | h2
    · rw [(natCmp_lt_iff _ _).mpr h2]
      constructor
      · intro hc; simp at hc
      · intro hc; subst hc; omega
    · rw [(natCmp_eq_iff _ _).mpr h2]
      simp only
      rw [strCmp_eq_iff]
      constructor
      · intro hc
        cases a; cases b
        simp_all
      · intro hc; subst hc; rfl
    · rw [(natCmp_gt_iff _ _).mpr h2]
      constructor
      · intro hc; simp at hc
      · intro hc; subst hc; omega
  · rw [(natCmp_gt_iff _ _).mpr h]
    simp only
    constructor
    · intro hc; simp at hc
    · intro hc; subst hc; omega

theorem nodeCmp_self (a : NodePriority) : nodeCmp a a = .eq :=
  (nodeCmp_eq_iff a a).mpr rfl

theorem strLt_not_not {a b c : String} (h1 : strLt a b = false)
    (h2 : strLt b c = false) : strLt a c = false := by
  by_cases hba : strLt b a = true
  · by_cases hcb : strLt c b = true
    · have : strLt c a = true := strLt_trans hcb hba
      exact strLt_asymm this
    · have hbc : b = c := strLt_connex h2 (by simpa using hcb)
      subst hbc
      exact strLt_asymm hba
  · have hab : a = b := strLt_connex h1 (by simpa using hba)
    subst hab
    exact h2

theorem nodeCmp_not_lt_trans {a b c : NodePriority}
    (h1 : nodeCmp a b ≠ .lt) (h2 : nodeCmp b c ≠ .lt) : nodeCmp a c ≠ .lt := by
  intro hc
  rw [nodeCmp_lt_iff] at hc
  have hab : ¬ (a.tokens < b.tokens ∨ (a.tokens = b.tokens ∧ b.depth < a.depth) ∨
      (a.tokens = b.tokens ∧ a.depth = b.depth ∧ strLt a.path b.path = true)) := by
    intro hx
    exact h1 ((nodeCmp_lt_iff a b).mpr hx)
  have hbc : ¬ (b.tokens < c.tokens ∨ (b.tokens = c.tokens ∧ c.depth < b.depth) ∨
      (b.tokens = c.tokens ∧ b.depth = c.depth ∧ strLt b.path c.path = true)) := by
    intro hx
    exact h2 ((nodeCmp_lt_iff b c).mpr hx)
  push_neg at hab hbc
  rcases hc with hc | hc | hc
  · omega
  · omega
  · have heab : a.tokens = b.tokens := by omega
    have hebc : b.tokens = c.tokens := by omega
    have hdeab : a.depth = b.depth := by
      have := hab.2.1 heab
      have := hbc.2.1 hebc
      omega
    have hdebc : b.depth = c.depth := by
      have := hab.2.1 heab
      have := hbc.2.1 hebc
      omega
    have hsab : strLt a.path b.path = false := by
      simpa using hab.2.2 heab hdeab
    have hsbc : strLt b.path c.path = false := by
      simpa using hbc.2.2 hebc hdebc
    have : strLt a.path c.path = false := strLt_not_not hsab hsbc
    rw [hc.2.2] at this
    simp at this

theorem nodeCmp_lt_gt {a b : NodePriority} (h : nodeCmp a b = .lt) :
    nodeCmp b a = .gt := by
  rw [nodeCmp_lt_iff] at h
  rw [nodeCmp_gt_iff]
  rcases h with h | h | h
  · left; exact h
  · right; left; exact ⟨h.1.symm, h.2⟩
  · right; right; exact ⟨h.1.symm, h.2.1.symm, h.2.2⟩

theorem popMaxAux_fst_max : ∀ (l : List NodePriority) (cur : NodePriority)
    (x : NodePriority), (x = cur ∨ x ∈ l) → nodeCmp (popMaxAux cur l).1 x ≠ .lt := by
  intro l
  induction l with
  | nil =>
    intro cur x hx
    rcases hx with hx | hx
    · subst hx
      simp [popMaxAux, nodeCmp_self]
    · simp at hx
  | cons y ys ih =>
    intro cur x hx
    simp only [popMaxAux]
    by_cases hcy : nodeCmp cur y = .lt
    · rw [if_pos hcy]
      rcases hpm : popMaxAux y ys with ⟨m, rest⟩
      simp only
      have hmy : nodeCmp m y ≠ .lt := by
        have := ih y y (Or.inl rfl)
        rwa [hpm] at this
      have hycur : nodeCmp y cur ≠ .lt := by
        have := nodeCmp_lt_gt hcy
        simp [this]
      rcases hx with hx | hx
      · subst hx
        exact nodeCmp_not_lt_trans hmy hycur
      · rcases List.mem_cons.mp hx with hx | hx
        · subst hx
          exact hmy
        · have := ih y x (Or.inr hx)
          rwa [hpm] at this
    · rw [if_neg hcy]
      rcases hpm : popMaxAux cur ys with ⟨m, rest⟩
      simp only
      have hmcur : nodeCmp m cur ≠ .lt := by
        have := ih cur cur (Or.inl rfl)
        rwa [hpm] at this
      rcases hx with hx | hx
      · subst hx
        exact hmcur
      · rcases List.mem_cons.mp hx with hx | hx
        · subst hx
          exact nodeCmp_not_lt_trans hmcur hcy
        · have := ih cur x (Or.inr hx)
          rwa [hpm] at this

theorem popMax_max {h : List NodePriority} {m : NodePriority}
    {rest : List NodePriority} (hp : popMax h = some (m, rest)) :
    ∀ x ∈ h, nodeCmp m x ≠ .lt := by
  cases h with
  | nil => simp [popMax] at hp
  | cons a l =>
    simp only [popMax, Option.some.injEq] at hp
    intro x hx
    have hm : (popMaxAux a l).1 = m := by rw [hp]
    have := popMaxAux_fst_max l a x
      (by
        rcases List.mem_cons.mp hx with h | h
        · left; exact h
        · right; exact h)
    rwa [hm] at this

/-! ### Path lookup skips empty components -/

theorem walkSkipEmpty_filter : ∀ (comps : List String) (node : TreeNode),
    walkSkipEmpty node comps = walkNodes node (comps.filter fun s => !(s == "")) := by
  intro comps
  induction comps with
  | nil => intro node; rfl
  | cons c rest ih =>
    intro node
    by_cases hc : c = ""
    · subst hc
      simp only [walkSkipEmpty, if_pos rfl]
      rw [ih]
      simp [List.filter]
    · have hfil : List.filter (fun s => !(s == "")) (c :: rest) =
          c :: List.filter (fun s => !(s == "")) rest := by
        simp [List.filter_cons, hc]
      rw [hfil]
      simp only [walkSkipEmpty, if_neg hc, walkNodes]
      cases childGet node.children c with
      | some child => simp [ih]
      | none => rfl

/-! ### The bar renderer: width, fill count, and shading -/

theorem shadeOf_spec (d : Nat) :
    shadeOf d = if d ≤ 1 then ' ' else if d = 2 then '░' else if d = 3 then '▒' else '▓' := by
  unfold shadeOf
  rcases d with _ | _ | _ | _ | n
  · rfl
  · rfl
  · rfl
  · rfl
  · have hmax : max (n + 4) 1 = n + 4 := Nat.max_eq_left (by omega)
    rw [hmax]
    have h1 : ¬ (n + 4 = 1) := by omega
    have h2 : ¬ (n + 4 = 2) := by omega
    have h3 : ¬ (n + 4 = 3) := by omega
    have h4 : ¬ (n + 4 ≤ 1) := by omega
    simp [h1, h2, h3, h4]

theorem shadeOf_ne_solid (d : Nat) : shadeOf d ≠ '█' := by
  rw [shadeOf_spec]
  split_ifs <;> decide

theorem generateHierarchicalBar_length (W : Nat) (parent : String) (p : ℚ) (d : Nat) :
    (generateHierarchicalBar W parent p d).length = W := by
  unfold generateHierarchicalBar
  by_cases h : W = 0
  · subst h
    rfl
  · rw [if_neg h]
    show (String.mk _).data.length = W
    simp

theorem count_range_map (f : Nat → Char) (F : Nat)
    (hf : ∀ i, (f i = '█' ↔ i < F)) :
    ∀ W, (((List.range W).map f).count '█') = min F W := by
  intro W
  induction W with
  | zero => simp
  | succ n ih =>
    rw [List.range_succ, List.map_append, List.count_append, ih]
    simp only [List.map_cons, List.map_nil]
    by_cases hn : n < F
    · have : f n = '█' := (hf n).mpr hn
      rw [this]
      simp only [List.count_cons, List.count_nil]
      simp
      omega
    · have hne : f n ≠ '█' := fun hx => hn ((hf n).mp hx)
      have : List.count '█' [f n] = 0 := by
        simp [List.count_cons, hne]
      rw [this]
      omega

theorem generateHierarchicalBar_count (W : Nat) (parent : String) (p : ℚ) (d : Nat) :
    ((generateHierarchicalBar W parent p d).data).count '█' = min (filledOf p W) W := by
  unfold generateHierarchicalBar
  by_cases h : W = 0
  · subst h
    simp
  · rw [if_neg h]
    show ((List.range W).map _).count '█' = _
    apply count_range_map
    intro i
    constructor
    · intro hi
      by_cases hlt : i < filledOf p W
      · exact hlt
      · exfalso
        rw [if_neg hlt] at hi
        cases hg : parent.data.get? i with
        | some pc =>
          rw [hg] at hi
          simp only at hi
          by_cases hpc : pc = '█'
          · rw [if_pos hpc] at hi
            exact shadeOf_ne_solid d hi
          · rw [if_neg hpc] at hi
            exact hpc hi
        | none =>
          rw [hg] at hi
          simp at hi
    · intro hi
      rw [if_pos hi]

theorem generateHierarchicalBar_get (W : Nat) (parent : String) (p : ℚ) (d : Nat)
    (i : Nat) (hiW : i < W) :
    (generateHierarchicalBar W parent p d).data.get? i = some (
      if i < filledOf p W then '█'
      else
        match parent.data.get? i with
        | some pc => if pc = '█' then shadeOf d else pc
        | none => ' ') := by
  unfold generateHierarchicalBar
  have h : ¬ W = 0 := by omega
  rw [if_neg h]
  show ((List.range W).map _).get? i = _
  rw [List.get?_map, List.get?_range hiW]
  rfl

/-! ### Metadata is present below the root of every constructed tree -/

theorem insertPath_cons (c : String) (rest : List String) (node : TreeNode)
    (t : Nat) (pp : String) (fm : EntryMetadata) :
    insertPath (c :: rest) node t pp fm =
      TreeNode.mk node.tokens
        (childPut c (insertChild c rest node t pp fm) node.children)
        node.path node.metadata := by
  cases rest <;> rfl

theorem MetaSome_children {n : TreeNode} (h : MetaSome n) :
    ∀ c ∈ n.children, MetaSome c.2 := by
  cases h with
  | mk tok cs p m hcs => exact hcs

theorem metaSome_insertPath : ∀ (comps : List String), comps ≠ [] →
    ∀ (node : TreeNode) (t : Nat) (pp : String) (fm : EntryMetadata),
    (∀ c ∈ node.children, MetaSome c.2) →
    (∀ x ∈ (insertPath comps node t pp fm).children, MetaSome x.2) ∧
    (∀ m, node.metadata = some m → MetaSome (insertPath comps node t pp fm)) := by
  intro comps
  induction comps with
  | nil => intro h; exact absurd rfl h
  | cons c rest ih =>
    intro _ node t pp fm hch
    have hold : ∀ x ∈ ((childGet node.children c).getD
        (TreeNode.withPath (if pp = "" then c else pp ++ "/" ++ c))).children,
        MetaSome x.2 := by
      cases hg : childGet node.children c with
      | some o =>
        simp only [hg, Option.getD_some]
        exact MetaSome_children (hch _ (childGet_some_mem hg))
      | none =>
        simp only [hg, Option.getD_none]
        intro x hx
        simp [TreeNode.withPath, TreeNode.children] at hx
    have hnew : MetaSome (insertChild c rest node t pp fm) := by
      cases rest with
      | nil =>
        show MetaSome (TreeNode.mk t _ _ (some fm))
        exact MetaSome.mk _ _ _ _ hold
      | cons r rs =>
        show MetaSome (insertPath (r :: rs)
          (TreeNode.mk _ _ _ (some ⟨true, false⟩)) t _ fm)
        have hih := ih (by simp) (TreeNode.mk
          (((childGet node.children c).getD
            (TreeNode.withPath (if pp = "" then c else pp ++ "/" ++ c))).tokens + t)
          ((childGet node.children c).getD
            (TreeNode.withPath (if pp = "" then c else pp ++ "/" ++ c))).children
          ((childGet node.children c).getD
            (TreeNode.withPath (if pp = "" then c else pp ++ "/" ++ c))).path
          (some ⟨true, false⟩)) t
          (if pp = "" then c else pp ++ "/" ++ c) fm hold
        exact hih.2 _ rfl
    rw [insertPath_cons]
    constructor
    · intro x hx
      rcases mem_childPut hx with hx | hx
      · rw [hx]
        exact hnew
      · exact hch x hx
    · intro m hm
      rw [hm]
      exact MetaSome.mk _ _ _ _ (by
        intro x hx
        rcases mem_childPut hx with hx | hx
        · rw [hx]
          exact hnew
        · exact hch x hx)

theorem splitSlashAux_ne_nil : ∀ (l acc : List Char), splitSlashAux l acc ≠ [] := by
  intro l
  induction l with
  | nil => intro acc; simp [splitSlashAux]
  | cons c rest ih =>
    intro acc
    simp only [splitSlashAux]
    by_cases hc : c = '/'
    · rw [if_pos hc]; simp
    · rw [if_neg hc]; exact ih _

theorem entryComponents_ne_nil (e : ProcessedEntry) : entryComponents e ≠ [] :=
  splitSlashAux_ne_nil _ _

theorem buildRoot_aux_metaSome (entries : List ProcessedEntry) :
    ∀ (root : TreeNode), (∀ c ∈ root.children, MetaSome c.2) →
      ∀ c ∈ (entries.foldl buildStep root).children, MetaSome c.2 := by
  induction entries with
  | nil => intro root h; exact h
  | cons e rest ih =>
    intro root h
    simp only [List.foldl_cons, buildStep]
    by_cases he : entryActive e = true
    · rw [if_pos he]
      exact ih _ ((metaSome_insertPath _ (entryComponents_ne_nil e) _ _ _ _ h).1)
    · rw [if_neg he]
      exact ih _ h

theorem buildRoot_metaSome (entries : List ProcessedEntry) :
    ∀ c ∈ (buildRoot entries).children, MetaSome c.2 := by
  apply buildRoot_aux_metaSome
  intro c hc
  simp [TreeNode.withPath, TreeNode.children] at hc

/-! ### Displayed file tokens never exceed the file-token total -/

theorem displayedTokensOf_append (a b : List TokenMapEntry) :
    displayedTokensOf (a ++ b) = displayedTokensOf a + displayedTokensOf b := by
  simp [displayedTokensOf]

theorem displayedTokensOf_flatten (L : List (List TokenMapEntry)) :
    displayedTokensOf L.flatten = (L.map displayedTokensOf).sum := by
  induction L with
  | nil => rfl
  | cons a rest ih =>
    simp only [List.flatten_cons, displayedTokensOf_append, ih, List.map_cons,
      List.sum_cons]

theorem sum_map_filter_le (h : String × TreeNode → Nat) (q : String × TreeNode → Bool) :
    ∀ l : List (String × TreeNode), ((l.filter q).map h).sum ≤ (l.map h).sum := by
  intro l
  induction l with
  | nil => simp
  | cons c rest ih =>
    rw [List.filter_cons]
    by_cases hq : q c = true
    · rw [if_pos hq]
      simp only [List.map_cons, List.sum_cons]
      omega
    · rw [if_neg hq]
      simp only [List.map_cons, List.sum_cons]
      omega

theorem MetaSome_metadata {n : TreeNode} (h : MetaSome n) : n.metadata ≠ none := by
  cases h with
  | mk tok cs p m hcs => simp [TreeNode.metadata]

theorem snd_mem_of_mem_enum {α : Type} {l : List α} {p : Nat × α}
    (h : p ∈ l.enum) : p.2 ∈ l := by
  have h2 : p.2 ∈ l.enum.map Prod.snd := List.mem_map_of_mem Prod.snd h
  rwa [List.enum_map_snd] at h2

theorem displayed_le_cftF : ∀ (fuel : Nat) (node : TreeNode) (curPath : String)
    (allowed : List (String × Nat)) (depth total : Nat) (isLast : Bool),
    (node.metadata = none → curPath = "") →
    (∀ c ∈ node.children, MetaSome c.2) →
    displayedTokensOf (rebuildF fuel node curPath allowed depth total isLast) ≤
      cftF fuel node := by
  intro fuel
  induction fuel with
  | zero => intros; simp [rebuildF, cftF, displayedTokensOf]
  | succ n ih =>
    intro node curPath allowed depth total isLast hmeta hch
    simp only [rebuildF, cftF]
    rw [displayedTokensOf_append]
    have hown : displayedTokensOf
        (if (curPath != "" && allowedHas allowed curPath) = true
          then [emitRow node curPath depth total isLast] else []) ≤
        (match node.metadata with
         | some m => if m.is_dir then 0 else node.tokens
         | none => 0) := by
      by_cases hcond : (curPath != "" && allowedHas allowed curPath) = true
      · rw [if_pos hcond]
        cases hm : node.metadata with
        | some m =>
          simp only [displayedTokensOf, emitRow, hm, Option.getD_some,
            List.map_cons, List.map_nil, List.sum_cons, List.sum_nil]
          cases hd : m.is_dir
          · simp [hd]
          · simp [hd]
        | none =>
          exfalso
          rw [hmeta hm] at hcond
          simp at hcond
      · rw [if_neg hcond]
        simp [displayedTokensOf]
    have hkids : displayedTokensOf
        (((sortTokDesc (node.children.filter fun c =>
            allowedHas allowed c.2.path)).enum.map fun p =>
          rebuildF n p.2.2 p.2.2.path allowed (depth + 1) total
            (p.1 + 1 == (sortTokDesc (node.children.filter fun c =>
              allowedHas allowed c.2.path)).length)).flatten) ≤
        ((node.children.map fun c => cftF n c.2).sum) := by
      rw [displayedTokensOf_flatten, List.map_map]
      have hpoint : ∀ p ∈ (sortTokDesc (node.children.filter fun c =>
          allowedHas allowed c.2.path)).enum,
          (displayedTokensOf ∘ fun p => rebuildF n p.2.2 p.2.2.path allowed
            (depth + 1) total (p.1 + 1 == (sortTokDesc (node.children.filter fun c =>
              allowedHas allowed c.2.path)).length)) p ≤
          (fun p : Nat × (String × TreeNode) => cftF n p.2.2) p := by
        intro p hp
        have hmem : p.2 ∈ node.children := by
          have h1 := snd_mem_of_mem_enum hp
          have h2 := mem_sortTokDesc h1
          exact (List.mem_filter.mp h2).1
        have hms : MetaSome p.2.2 := hch _ hmem
        exact ih _ _ _ _ _ _ (fun hm => absurd hm (MetaSome_metadata hms))
          (MetaSome_children hms)
      calc ((sortTokDesc (node.children.filter fun c =>
            allowedHas allowed c.2.path)).enum.map _).sum ≤
          ((sortTokDesc (node.children.filter fun c =>
            allowedHas allowed c.2.path)).enum.map fun p => cftF n p.2.2).sum :=
            List.sum_le_sum hpoint
        _ = ((sortTokDesc (node.children.filter fun c =>
            allowedHas allowed c.2.path)).map fun c => cftF n c.2).sum := by
            rw [show ((sortTokDesc (node.children.filter fun c =>
              allowedHas allowed c.2.path)).enum.map fun p => cftF n p.2.2) =
              (((sortTokDesc (node.children.filter fun c =>
                allowedHas allowed c.2.path)).enum.map Prod.snd).map
                  fun c => cftF n c.2) from by rw [List.map_map]; rfl]
            rw [List.enum_map_snd]
        _ = ((node.children.filter fun c =>
            allowedHas allowed c.2.path).map fun c => cftF n c.2).sum :=
            sum_map_sortTokDesc _ _
        _ ≤ (node.children.map fun c => cftF n c.2).sum :=
            sum_map_filter_le _ _ _
    exact Nat.add_le_add hown hkids

/-! ### The construction invariant: aggregation in well-formed trees -/

theorem insertPath_tokens (c : String) (rest : List String) (node : TreeNode)
    (t : Nat) (pp : String) (fm : EntryMetadata) :
    (insertPath (c :: rest) node t pp fm).tokens = node.tokens := by
  rw [insertPath_cons]
  rfl

theorem insertPath_children (c : String) (rest : List String) (node : TreeNode)
    (t : Nat) (pp : String) (fm : EntryMetadata) :
    (insertPath (c :: rest) node t pp fm).children =
      childPut c (insertChild c rest node t pp fm) node.children := by
  rw [insertPath_cons]
  rfl

theorem insertPath_metadata (c : String) (rest : List String) (node : TreeNode)
    (t : Nat) (pp : String) (fm : EntryMetadata) :
    (insertPath (c :: rest) node t pp fm).metadata = node.metadata := by
  rw [insertPath_cons]
  rfl

theorem insertChild_nil (c : String) (node : TreeNode) (t : Nat) (pp : String)
    (fm : EntryMetadata) :
    insertChild c [] node t pp fm =
      TreeNode.mk t (oldChildOf node c pp).children (oldChildOf node c pp).path
        (some fm) := rfl

theorem insertChild_cons (c r : String) (rs : List String) (node : TreeNode)
    (t : Nat) (pp : String) (fm : EntryMetadata) :
    insertChild c (r :: rs) node t pp fm =
      insertPath (r :: rs)
        (TreeNode.mk ((oldChildOf node c pp).tokens + t) (oldChildOf node c pp).children
          (oldChildOf node c pp).path (some ⟨true, false⟩))
        t (fullPathOf pp c) fm := rfl

theorem freeAtL_nil : ∀ comps : List String, freeAtL [] comps := by
  intro comps
  match comps with
  | [] => trivial
  | [c] => rfl
  | c :: c2 :: rest => simp [freeAtL, childGet]

theorem freeAtL_single {cs : List (String × TreeNode)} {c : String}
    (h : freeAtL cs [c]) : childGet cs c = none := h

theorem freeAtL_cons2 {cs : List (String × TreeNode)} {c c2 : String}
    {rest : List String} (h : freeAtL cs (c :: c2 :: rest)) {ch : TreeNode}
    (hg : childGet cs c = some ch) :
    ch.metadata = some ⟨true, false⟩ ∧ freeAtL ch.children (c2 :: rest) := by
  unfold freeAtL at h
  rw [hg] at h
  exact h

theorem GoodNode_metadata_cases {n : TreeNode} (h : GoodNode n) :
    n.metadata = some ⟨false, false⟩ ∧ n.children = [] ∨
    n.metadata = some ⟨true, false⟩ ∧ n.tokens = childSumL n.children ∧
      n.children ≠ [] ∧ sortedKeys n.children ∧ ∀ c ∈ n.children, GoodNode c.2 := by
  cases h with
  | file tok p => left; exact ⟨rfl, rfl⟩
  | dir tok cs p hne hsum hsort hall => right; exact ⟨rfl, hsum, hne, hsort, hall⟩

theorem insert_good : ∀ (comps : List String), comps ≠ [] →
    ∀ (node : TreeNode) (t : Nat) (pp : String),
    (∀ c ∈ node.children, GoodNode c.2) → sortedKeys node.children →
    freeAtL node.children comps →
    (∀ x ∈ (insertPath comps node t pp ⟨false, false⟩).children, GoodNode x.2) ∧
    sortedKeys (insertPath comps node t pp ⟨false, false⟩).children ∧
    childSumL (insertPath comps node t pp ⟨false, false⟩).children =
      childSumL node.children + t ∧
    (insertPath comps node t pp ⟨false, false⟩).children ≠ [] := by
  intro comps
  induction comps with
  | nil => intro h; exact absurd rfl h
  | cons c rest ih =>
    intro _ node t pp hgood hsort hfree
    rw [insertPath_children c rest node t pp ⟨false, false⟩] at *
    cases rest with
    | nil =>
      have hg : childGet node.children c = none := freeAtL_single hfree
      have hold : oldChildOf node c pp = TreeNode.withPath (fullPathOf pp c) := by
        simp [oldChildOf, hg]
      have hnewgood : GoodNode (insertChild c [] node t pp ⟨false, false⟩) := by
        rw [insertChild_nil, hold]
        exact GoodNode.file t _
      have htok : (insertChild c [] node t pp ⟨false, false⟩).tokens = t := by
        rw [insertChild_nil]
        rfl
      refine ⟨?_, sortedKeys_childPut hsort, ?_, childPut_ne_nil _ _ _⟩
      · intro x hx
        rcases mem_childPut hx with hx | hx
        · rw [hx]
          exact hnewgood
        · exact hgood x hx
      · rw [childSumL_childPut_new hg, htok]
    | cons r rs =>
      cases hg : childGet node.children c with
      | some ch =>
        obtain ⟨chT, chCs, chP, chM⟩ := ch
        have hfree2 := freeAtL_cons2 hfree hg
        have hchgood : GoodNode (TreeNode.mk chT chCs chP chM) :=
          hgood _ (childGet_some_mem hg)
        have hdir := GoodNode_metadata_cases hchgood
        simp only [TreeNode.metadata, TreeNode.children, TreeNode.tokens] at hdir hfree2
        rcases hdir with ⟨hmfile, _⟩ | ⟨hmdir, hchsum, hchne, hchsort, hchall⟩
        · rw [hmfile] at hfree2
          exact absurd hfree2.1 (by simp)
        · subst hmdir
          have hold : oldChildOf node c pp = TreeNode.mk chT chCs chP (some ⟨true, false⟩) := by
            simp [oldChildOf, hg]
          have hih := ih (by simp)
            (TreeNode.mk (chT + t) chCs chP (some ⟨true, false⟩))
            t (fullPathOf pp c) hchall hchsort hfree2.2
          rw [insertPath_children] at hih
          simp only [TreeNode.children] at hih
          have hnew : insertChild c (r :: rs) node t pp ⟨false, false⟩ =
              insertPath (r :: rs)
                (TreeNode.mk (chT + t) chCs chP (some ⟨true, false⟩))
                t (fullPathOf pp c) ⟨false, false⟩ := by
            rw [insertChild_cons, hold]
            rfl
          have hnewgood : GoodNode (insertChild c (r :: rs) node t pp ⟨false, false⟩) := by
            rw [hnew, insertPath_cons]
            simp only [TreeNode.tokens, TreeNode.children, TreeNode.path, TreeNode.metadata]
            exact GoodNode.dir _ _ _ hih.2.2.2 (by
                have := hih.2.2.1
                omega) hih.2.1 hih.1
          have htok : (insertChild c (r :: rs) node t pp ⟨false, false⟩).tokens =
              chT + t := by
            rw [hnew, insertPath_tokens]
            rfl
          refine ⟨?_, sortedKeys_childPut hsort, ?_, childPut_ne_nil _ _ _⟩
          · intro x hx
            rcases mem_childPut hx with hx | hx
            · rw [hx]
              exact hnewgood
            · exact hgood x hx
          · have hrep := childSumL_childPut_replace
              (v := insertChild c (r :: rs) node t pp ⟨false, false⟩)
              hsort hg
            simp only [TreeNode.tokens] at hrep htok
            rw [htok] at hrep
            omega
      | none =>
        have hold : oldChildOf node c pp = TreeNode.withPath (fullPathOf pp c) := by
          simp [oldChildOf, hg]
        have hih := ih (by simp)
          (TreeNode.mk (0 + t) [] (fullPathOf pp c) (some ⟨true, false⟩))
          t (fullPathOf pp c) (by intro x hx; simp [TreeNode.children] at hx)
          (by simp [sortedKeys, TreeNode.children])
          (freeAtL_nil _)
        rw [insertPath_children] at hih
        simp only [TreeNode.children] at hih
        have hnew : insertChild c (r :: rs) node t pp ⟨false, false⟩ =
            insertPath (r :: rs)
              (TreeNode.mk (0 + t) [] (fullPathOf pp c) (some ⟨true, false⟩))
              t (fullPathOf pp c) ⟨false, false⟩ := by
          rw [insertChild_cons, hold]
          rfl
        have hnewgood : GoodNode (insertChild c (r :: rs) node t pp ⟨false, false⟩) := by
          rw [hnew, insertPath_cons]
          simp only [TreeNode.tokens, TreeNode.children, TreeNode.path, TreeNode.metadata]
          exact GoodNode.dir _ _ _ hih.2.2.2 (by
              have := hih.2.2.1
              simp only [childSumL, List.map_nil, List.sum_nil] at this ⊢
              omega) hih.2.1 hih.1
        have htok : (insertChild c (r :: rs) node t pp ⟨false, false⟩).tokens =
            0 + t := by
          rw [hnew, insertPath_tokens]
          rfl
        refine ⟨?_, sortedKeys_childPut hsort, ?_, childPut_ne_nil _ _ _⟩
        · intro x hx
          rcases mem_childPut hx with hx | hx
          · rw [hx]
            exact hnewgood
          · exact hgood x hx
        · rw [childSumL_childPut_new hg, htok]
          omega

/-! ### Leaf paths: existence, non-overlap, and evolution under insertion -/

theorem leafTokensAt_nil_cs : ∀ p : List String, leafTokensAt [] p = none := by
  intro p
  match p with
  | [] => rfl
  | [c] => simp [leafTokensAt, nodeAtPath, childGet]
  | c :: c2 :: rest => simp [leafTokensAt, nodeAtPath, childGet]

theorem leafTokensAt_cons {cs : List (String × TreeNode)} {c : String} {ch : TreeNode}
    (hg : childGet cs c = some ch) (q : List String) :
    leafTokensAt cs (c :: q) =
      if q = [] then
        (if ch.metadata = some ⟨false, false⟩ then some ch.tokens else none)
      else leafTokensAt ch.children q := by
  cases q with
  | nil => simp [leafTokensAt, nodeAtPath, hg]
  | cons q1 qs =>
    simp only [leafTokensAt, nodeAtPath, hg, Option.bind_some]
    simp

theorem leafTokensAt_cons_none {cs : List (String × TreeNode)} {c : String}
    (hg : childGet cs c = none) (q : List String) :
    leafTokensAt cs (c :: q) = none := by
  cases q with
  | nil => simp [leafTokensAt, nodeAtPath, hg]
  | cons q1 qs => simp [leafTokensAt, nodeAtPath, hg]

theorem good_descend {n : TreeNode} (h : GoodNode n) :
    ∃ q : List String, (q = [] ∧ n.metadata = some ⟨false, false⟩) ∨
      (q ≠ [] ∧ (leafTokensAt n.children q).isSome) := by
  induction h with
  | file tok p => exact ⟨[], Or.inl ⟨rfl, rfl⟩⟩
  | dir tok cs p hne hsum hsort hall ih =>
    cases cs with
    | nil => exact absurd rfl hne
    | cons c0 rest =>
      have hg : childGet (c0 :: rest) c0.1 = some c0.2 := by simp [childGet]
      obtain ⟨q, hq⟩ := ih c0 (List.mem_cons_self _ _)
      rcases hq with ⟨hq0, hmeta⟩ | ⟨hq0, hsome⟩
      · refine ⟨[c0.1], Or.inr ⟨by simp, ?_⟩⟩
        show (leafTokensAt (c0 :: rest) [c0.1]).isSome
        rw [leafTokensAt_cons hg]
        simp [hmeta]
      · refine ⟨c0.1 :: q, Or.inr ⟨by simp, ?_⟩⟩
        show (leafTokensAt (c0 :: rest) (c0.1 :: q)).isSome
        rw [leafTokensAt_cons hg, if_neg hq0]
        exact hsome

theorem free_of_no_overlap : ∀ (comps : List String), comps ≠ [] →
    ∀ (cs : List (String × TreeNode)),
    (∀ x ∈ cs, GoodNode x.2) →
    (∀ p : List String, p ≠ [] → (leafTokensAt cs p).isSome →
      initSeg p comps = false ∧ initSeg comps p = false) →
    freeAtL cs comps := by
  intro comps
  induction comps with
  | nil => intro h; exact absurd rfl h
  | cons c rest ih =>
    intro _ cs hgood hno
    cases rest with
    | nil =>
      show childGet cs c = none
      cases hg : childGet cs c with
      | none => rfl
      | some ch =>
        exfalso
        obtain ⟨q, hq⟩ := good_descend (hgood _ (childGet_some_mem hg))
        have hleaf : (leafTokensAt cs (c :: q)).isSome := by
          rcases hq with ⟨hq0, hmeta⟩ | ⟨hq0, hsome⟩
          · subst hq0
            rw [leafTokensAt_cons hg]
            simp [hmeta]
          · rw [leafTokensAt_cons hg, if_neg hq0]
            exact hsome
        have hfalse := (hno (c :: q) (by simp) hleaf).2
        have htrue : initSeg [c] (c :: q) = true := by
          simp [initSeg]
        rw [htrue] at hfalse
        simp at hfalse
    | cons r rs =>
      show freeAtL cs (c :: r :: rs)
      unfold freeAtL
      cases hg : childGet cs c with
      | none => trivial
      | some ch =>
        have hchgood := hgood _ (childGet_some_mem hg)
        rcases GoodNode_metadata_cases hchgood with ⟨hmfile, hchnil⟩ |
          ⟨hmdir, _, _, _, hchall⟩
        · exfalso
          have hleaf : (leafTokensAt cs [c]).isSome := by
            rw [leafTokensAt_cons hg]
            simp [hmfile]
          have hfalse := (hno [c] (by simp) hleaf).1
          have htrue : initSeg [c] (c :: r :: rs) = true := by
            simp [initSeg]
          rw [htrue] at hfalse
          simp at hfalse
        · refine ⟨hmdir, ?_⟩
          apply ih (by simp) ch.children hchall
          intro p hp hsome
          have hlift : (leafTokensAt cs (c :: p)).isSome := by
            rw [leafTokensAt_cons hg, if_neg hp]
            exact hsome
          have hx := hno (c :: p) (by simp) hlift
          constructor
          · have := hx.1
            simpa [initSeg] using this
          · have := hx.2
            simpa [initSeg] using this

theorem leafTokensAt_insert : ∀ (comps : List String), comps ≠ [] →
    ∀ (node : TreeNode) (t : Nat) (pp : String),
    (∀ x ∈ node.children, GoodNode x.2) → sortedKeys node.children →
    freeAtL node.children comps →
    ∀ p : List String, p ≠ [] →
      leafTokensAt (insertPath comps node t pp ⟨false, false⟩).children p =
        if p = comps then some t else leafTokensAt node.children p := by
  intro comps
  induction comps with
  | nil => intro h; exact absurd rfl h
  | cons c rest ih =>
    intro _ node t pp hgood hsort hfree p hp
    rw [insertPath_children]
    cases p with
    | nil => exact absurd rfl hp
    | cons p1 ptail =>
      by_cases hpc : p1 = c
      · subst hpc
        have hput : childGet (childPut p1 (insertChild p1 rest node t pp ⟨false, false⟩)
            node.children) p1 = some (insertChild p1 rest node t pp ⟨false, false⟩) := by
          rw [childGet_childPut]
          simp
        rw [leafTokensAt_cons hput]
        cases rest with
        | nil =>
          have hg : childGet node.children p1 = none := freeAtL_single hfree
          have hold : oldChildOf node p1 pp = TreeNode.withPath (fullPathOf pp p1) := by
            simp [oldChildOf, hg]
          cases ptail with
          | nil =>
            rw [if_pos rfl, if_pos rfl]
            rw [insertChild_nil, hold]
            simp [TreeNode.metadata, TreeNode.tokens, TreeNode.withPath]
          | cons q1 qs =>
            have hne1 : (q1 :: qs : List String) ≠ [] := by simp
            rw [if_neg hne1, if_neg (by simp)]
            rw [insertChild_nil, hold]
            show leafTokensAt (TreeNode.withPath (fullPathOf pp p1)).children _ = _
            rw [show (TreeNode.withPath (fullPathOf pp p1)).children = [] from rfl]
            rw [leafTokensAt_nil_cs, leafTokensAt_cons_none hg]
        | cons r rs =>
          cases hg : childGet node.children p1 with
          | some ch =>
            have hfree2 := freeAtL_cons2 hfree hg
            have hchgood := hgood _ (childGet_some_mem hg)
            rcases GoodNode_metadata_cases hchgood with ⟨hmfile, _⟩ |
              ⟨hmdir, hchsum, hchne, hchsort, hchall⟩
            · rw [hmfile] at hfree2
              exact absurd hfree2.1 (by simp)
            · have hold : oldChildOf node p1 pp = ch := by simp [oldChildOf, hg]
              have hnew : insertChild p1 (r :: rs) node t pp ⟨false, false⟩ =
                  insertPath (r :: rs)
                    (TreeNode.mk (ch.tokens + t) ch.children ch.path (some ⟨true, false⟩))
                    t (fullPathOf pp p1) ⟨false, false⟩ := by
                rw [insertChild_cons, hold]
              cases ptail with
              | nil =>
                have hmeta : (insertChild p1 (r :: rs) node t pp ⟨false, false⟩).metadata =
                    some ⟨true, false⟩ := by
                  rw [hnew, insertPath_metadata]
                  rfl
                have hne3 : ([p1] : List String) ≠ p1 :: r :: rs := by simp
                rw [if_pos rfl, hmeta, if_neg hne3, leafTokensAt_cons hg]
                simp [hmdir]
              | cons q1 qs =>
                have hne1 : (q1 :: qs : List String) ≠ [] := by simp
                rw [if_neg hne1]
                have hchildren : (insertChild p1 (r :: rs) node t pp ⟨false, false⟩).children =
                    (insertPath (r :: rs)
                      (TreeNode.mk (ch.tokens + t) ch.children ch.path (some ⟨true, false⟩))
                      t (fullPathOf pp p1) ⟨false, false⟩).children := by
                  rw [hnew]
                rw [hchildren]
                rw [ih (by simp) _ t (fullPathOf pp p1) (by
                    intro x hx
                    simp only [TreeNode.children] at hx
                    exact hchall x hx)
                  (by simpa [TreeNode.children] using hchsort)
                  (by simpa [TreeNode.children] using hfree2.2) _ hne1]
                rw [leafTokensAt_cons hg, if_neg hne1]
                simp only [TreeNode.children]
                by_cases hq : (q1 :: qs : List String) = r :: rs
                · rw [if_pos hq, if_pos (by rw [hq])]
                · rw [if_neg hq, if_neg (by
                    intro hcontra
                    exact hq (by injection hcontra))]
          | none =>
            have hold : oldChildOf node p1 pp = TreeNode.withPath (fullPathOf pp p1) := by
              simp [oldChildOf, hg]
            have hnew : insertChild p1 (r :: rs) node t pp ⟨false, false⟩ =
                insertPath (r :: rs)
                  (TreeNode.mk (0 + t) [] (fullPathOf pp p1) (some ⟨true, false⟩))
                  t (fullPathOf pp p1) ⟨false, false⟩ := by
              rw [insertChild_cons, hold]
              rfl
            cases ptail with
            | nil =>
              have hmeta : (insertChild p1 (r :: rs) node t pp ⟨false, false⟩).metadata =
                  some ⟨true, false⟩ := by
                rw [hnew, insertPath_metadata]
                rfl
              have hne3 : ([p1] : List String) ≠ p1 :: r :: rs := by simp
              rw [if_pos rfl, hmeta, if_neg hne3, leafTokensAt_cons_none hg]
              simp
            | cons q1 qs =>
              have hne1 : (q1 :: qs : List String) ≠ [] := by simp
              rw [if_neg hne1]
              have hchildren : (insertChild p1 (r :: rs) node t pp ⟨false, false⟩).children =
                  (insertPath (r :: rs)
                    (TreeNode.mk (0 + t) [] (fullPathOf pp p1) (some ⟨true, false⟩))
                    t (fullPathOf pp p1) ⟨false, false⟩).children := by
                rw [hnew]
              rw [hchildren]
              rw [ih (by simp) _ t (fullPathOf pp p1)
                  (by intro x hx; simp [TreeNode.children] at hx)
                  (by simp [sortedKeys, TreeNode.children])
                  (by exact freeAtL_nil (r :: rs)) _ hne1]
              rw [leafTokensAt_cons_none hg]
              simp only [TreeNode.children]
              rw [leafTokensAt_nil_cs]
              by_cases hq : (q1 :: qs : List String) = r :: rs
              · rw [if_pos hq, if_pos (by rw [hq])]
              · rw [if_neg hq, if_neg (by
                  intro hcontra
                  exact hq (by injection hcontra))]
      · have hput : childGet (childPut c (insertChild c rest node t pp ⟨false, false⟩)
            node.children) p1 = childGet node.children p1 := by
          rw [childGet_childPut]
          rw [if_neg hpc]
        have hne2 : (p1 :: ptail : List String) ≠ c :: rest := by
          intro hcontra
          exact hpc (by injection hcontra)
        rw [if_neg hne2]
        cases hg : childGet node.children p1 with
        | some ch =>
          rw [leafTokensAt_cons (by rw [hput, hg]), leafTokensAt_cons hg]
        | none =>
          rw [leafTokensAt_cons_none (by rw [hput, hg]), leafTokensAt_cons_none hg]

theorem initSeg_refl : ∀ l : List String, initSeg l l = true := by
  intro l
  induction l with
  | nil => rfl
  | cons a rest ih => simp [initSeg, ih]

theorem activeTokenSum_cons (e : ProcessedEntry) (rest : List ProcessedEntry) :
    activeTokenSum (e :: rest) =
      (if entryActive e then entryTokens e else 0) + activeTokenSum rest := by
  simp [activeTokenSum]

theorem buildFold_invariant : ∀ (entries : List ProcessedEntry) (root : TreeNode),
    (∀ x ∈ root.children, GoodNode x.2) →
    sortedKeys root.children →
    (∀ p : List String, p ≠ [] → (leafTokensAt root.children p).isSome →
      ∀ e ∈ entries, entryActive e →
        initSeg p (entryComponents e) = false ∧
        initSeg (entryComponents e) p = false) →
    List.Pairwise (fun a b => entryActive a → entryActive b →
      initSeg (entryComponents a) (entryComponents b) = false ∧
      initSeg (entryComponents b) (entryComponents a) = false) entries →
    (∀ x ∈ (entries.foldl buildStep root).children, GoodNode x.2) ∧
    sortedKeys (entries.foldl buildStep root).children ∧
    childSumL (entries.foldl buildStep root).children =
      childSumL root.children + activeTokenSum entries ∧
    (∀ e ∈ entries, entryActive e →
      leafTokensAt (entries.foldl buildStep root).children (entryComponents e) =
        some (entryTokens e)) ∧
    (∀ p : List String, p ≠ [] → (leafTokensAt root.children p).isSome →
      leafTokensAt (entries.foldl buildStep root).children p =
        leafTokensAt root.children p) := by
  intro entries
  induction entries with
  | nil =>
    intro root hgood hsort hcross hpair
    refine ⟨hgood, hsort, ?_, ?_, ?_⟩
    · simp [activeTokenSum]
    · intro e he
      simp at he
    · intro p hp hsome
      rfl
  | cons e rest ih =>
    intro root hgood hsort hcross hpair
    simp only [List.foldl_cons]
    by_cases he : entryActive e = true
    · have hstep : buildStep root e =
          insertPath (entryComponents e) root (entryTokens e) "" ⟨false, false⟩ := by
        simp [buildStep, he]
      have hfree : freeAtL root.children (entryComponents e) :=
        free_of_no_overlap _ (entryComponents_ne_nil e) _ hgood
          (fun p hp hsome => hcross p hp hsome e (List.mem_cons_self _ _) he)
      have hinsert := insert_good (entryComponents e) (entryComponents_ne_nil e)
        root (entryTokens e) "" hgood hsort hfree
      have hleafeq := leafTokensAt_insert (entryComponents e)
        (entryComponents_ne_nil e) root (entryTokens e) "" hgood hsort hfree
      have hpair2 := List.pairwise_cons.mp hpair
      have hcross2 : ∀ p : List String, p ≠ [] →
          (leafTokensAt (buildStep root e).children p).isSome →
          ∀ e2 ∈ rest, entryActive e2 →
            initSeg p (entryComponents e2) = false ∧
            initSeg (entryComponents e2) p = false := by
        intro p hp hsome e2 he2 hact2
        rw [hstep, hleafeq p hp] at hsome
        by_cases hpe : p = entryComponents e
        · rw [hpe]
          exact hpair2.1 e2 he2 he hact2
        · rw [if_neg hpe] at hsome
          exact hcross p hp hsome e2 (List.mem_cons_of_mem _ he2) hact2
      have hih := ih (buildStep root e)
        (by rw [hstep]; exact hinsert.1)
        (by rw [hstep]; exact hinsert.2.1)
        hcross2 hpair2.2
      refine ⟨hih.1, hih.2.1, ?_, ?_, ?_⟩
      · rw [hih.2.2.1, hstep, hinsert.2.2.1, activeTokenSum_cons, if_pos he]
        omega
      · intro e2 he2 hact2
        rcases List.mem_cons.mp he2 with he2 | he2
        · rw [he2]
          have hsome : (leafTokensAt (buildStep root e).children
              (entryComponents e)).isSome := by
            rw [hstep, hleafeq _ (entryComponents_ne_nil e), if_pos rfl]
            rfl
          rw [hih.2.2.2.2 _ (entryComponents_ne_nil e) hsome]
          rw [hstep, hleafeq _ (entryComponents_ne_nil e), if_pos rfl]
        · exact hih.2.2.2.1 e2 he2 hact2
      · intro p hp hsome
        have hne : p ≠ entryComponents e := by
          intro hpe
          have := (hcross p hp hsome e (List.mem_cons_self _ _) he).1
          rw [hpe, initSeg_refl] at this
          simp at this
        have heq : leafTokensAt (buildStep root e).children p =
            leafTokensAt root.children p := by
          rw [hstep, hleafeq p hp, if_neg hne]
        rw [hih.2.2.2.2 p hp (by rw [heq]; exact hsome), heq]
    · have hstep : buildStep root e = root := by
        simp [buildStep, he]
      rw [hstep]
      have hpair2 := List.pairwise_cons.mp hpair
      have hih := ih root hgood hsort
        (by
          intro p hp hsome e2 he2 hact2
          exact hcross p hp hsome e2 (List.mem_cons_of_mem _ he2) hact2)
        hpair2.2
      refine ⟨hih.1, hih.2.1, ?_, ?_, hih.2.2.2.2⟩
      · rw [hih.2.2.1, activeTokenSum_cons, if_neg he]
        omega
      · intro e2 he2 hact2
        rcases List.mem_cons.mp he2 with he2 | he2
        · rw [he2] at hact2
          exact absurd hact2 he
        · exact hih.2.2.2.1 e2 he2 hact2

/-! ### Token bounds for emitted rows -/

theorem le_childSumL : ∀ {cs : List (String × TreeNode)} {x : String × TreeNode},
    x ∈ cs → x.2.tokens ≤ childSumL cs := by
  intro cs
  induction cs with
  | nil => intro x hx; simp at hx
  | cons c rest ih =>
    intro x hx
    rcases List.mem_cons.mp hx with hx | hx
    · rw [hx]
      simp only [childSumL, List.map_cons, List.sum_cons]
      omega
    · have := ih hx
      simp only [childSumL, List.map_cons, List.sum_cons] at this ⊢
      omega

theorem GoodNode_child_le {n : TreeNode} (h : GoodNode n) :
    ∀ c ∈ n.children, c.2.tokens ≤ n.tokens := by
  cases h with
  | file tok p => intro c hc; simp [TreeNode.children] at hc
  | dir tok cs p hne hsum hsort hall =>
    intro c hc
    simp only [TreeNode.children] at hc
    simp only [TreeNode.tokens]
    rw [hsum]
    exact le_childSumL hc

theorem GoodNode_children_good {n : TreeNode} (h : GoodNode n) :
    ∀ c ∈ n.children, GoodNode c.2 := by
  cases h with
  | file tok p => intro c hc; simp [TreeNode.children] at hc
  | dir tok cs p hne hsum hsort hall => exact hall

theorem rebuildF_row_tokens_le : ∀ (fuel B : Nat) (node : TreeNode)
    (curPath : String) (allowed : List (String × Nat)) (depth total : Nat)
    (isLast : Bool),
    node.tokens ≤ B → (∀ c ∈ node.children, GoodNode c.2) →
    (∀ c ∈ node.children, c.2.tokens ≤ B) →
    ∀ row ∈ rebuildF fuel node curPath allowed depth total isLast,
      row.tokens ≤ B := by
  intro fuel
  induction fuel with
  | zero => intro B node curPath allowed depth total isLast _ _ _ row hrow; simp [rebuildF] at hrow
  | succ n ih =>
    intro B node curPath allowed depth total isLast hB hgood hle row hrow
    simp only [rebuildF] at hrow
    rcases List.mem_append.mp hrow with hrow | hrow
    · by_cases hcond : (curPath != "" && allowedHas allowed curPath) = true
      · rw [if_pos hcond] at hrow
        rcases List.mem_singleton.mp hrow with rfl
        exact hB
      · rw [if_neg hcond] at hrow
        simp at hrow
    · obtain ⟨l, hl, hrowl⟩ := List.mem_flatten.mp hrow
      obtain ⟨p, hp, hlp⟩ := List.mem_map.mp hl
      have hmem : p.2 ∈ node.children :=
        (List.mem_filter.mp (mem_sortTokDesc (snd_mem_of_mem_enum hp))).1
      have hchildgood := hgood _ hmem
      rw [← hlp] at hrowl
      exact ih B p.2.2 _ allowed _ total _ (hle _ hmem)
        (GoodNode_children_good hchildgood)
        (fun c hc => le_trans (GoodNode_child_le hchildgood c hc) (hle _ hmem))
        row hrowl

theorem rebuildF_row_percentage : ∀ (fuel : Nat) (node : TreeNode)
    (curPath : String) (allowed : List (String × Nat)) (depth total : Nat)
    (isLast : Bool),
    ∀ row ∈ rebuildF fuel node curPath allowed depth total isLast,
      row.percentage = if 0 < total then ratioPct row.tokens total else 0 := by
  intro fuel
  induction fuel with
  | zero => intro node curPath allowed depth total isLast row hrow; simp [rebuildF] at hrow
  | succ n ih =>
    intro node curPath allowed depth total isLast row hrow
    simp only [rebuildF] at hrow
    rcases List.mem_append.mp hrow with hrow | hrow
    · by_cases hcond : (curPath != "" && allowedHas allowed curPath) = true
      · rw [if_pos hcond] at hrow
        rcases List.mem_singleton.mp hrow with rfl
        rfl
      · rw [if_neg hcond] at hrow
        simp at hrow
    · obtain ⟨l, hl, hrowl⟩ := List.mem_flatten.mp hrow
      obtain ⟨p, hp, hlp⟩ := List.mem_map.mp hl
      rw [← hlp] at hrowl
      exact ih p.2.2 _ allowed _ total _ row hrowl

theorem cftF_le_tokens : ∀ (fuel : Nat) (n : TreeNode), GoodNode n →
    cftF fuel n ≤ n.tokens := by
  intro fuel
  induction fuel with
  | zero => intro n _; simp [cftF]
  | succ m ih =>
    intro n h
    cases h with
    | file tok p =>
      show tok + (([] : List (String × TreeNode)).map fun c => cftF m c.2).sum ≤ tok
      simp
    | dir tok cs p hne hsum hsort hall =>
      have hsumle : ((cs.map fun c => cftF m c.2).sum) ≤
          ((cs.map fun c => c.2.tokens).sum) :=
        List.sum_le_sum (fun c hc => ih c.2 (hall c hc))
      show 0 + ((cs.map fun c => cftF m c.2).sum) ≤ tok
      rw [hsum]
      simp only [childSumL]
      omega

theorem cftF_root_le : ∀ (fuel : Nat) (root : TreeNode), root.metadata = none →
    (∀ c ∈ root.children, GoodNode c.2) →
    cftF fuel root ≤ childSumL root.children := by
  intro fuel
  cases fuel with
  | zero => intro root _ _; simp [cftF]
  | succ m =>
    intro root hm hgood
    simp only [cftF, hm]
    have : ((root.children.map fun c => cftF m c.2).sum) ≤
        ((root.children.map fun c => c.2.tokens).sum) :=
      List.sum_le_sum (fun c hc => cftF_le_tokens m c.2 (hgood c hc))
    simp only [childSumL]
    omega

theorem ratioPct_bounds {t total : Nat} (h : t ≤ total) (hpos : 0 < total) :
    0 ≤ ratioPct t total ∧ ratioPct t total ≤ 100 := by
  rw [ratioPct_eq]
  constructor
  · positivity
  · have htot : (0 : ℚ) < total := by exact_mod_cast hpos
    rw [div_mul_eq_mul_div, div_le_iff htot]
    have hle : (t : ℚ) ≤ total := by exact_mod_cast h
    nlinarith

theorem insertPath_metadata_any (comps : List String) (node : TreeNode) (t : Nat)
    (pp : String) (fm : EntryMetadata) :
    (insertPath comps node t pp fm).metadata = node.metadata := by
  cases comps with
  | nil => rfl
  | cons c rest => exact insertPath_metadata c rest node t pp fm

theorem buildFold_metadata : ∀ (entries : List ProcessedEntry) (root : TreeNode),
    (entries.foldl buildStep root).metadata = root.metadata := by
  intro entries
  induction entries with
  | nil => intro root; rfl
  | cons e rest ih =>
    intro root
    simp only [List.foldl_cons]
    rw [ih]
    simp only [buildStep]
    by_cases he : entryActive e = true
    · rw [if_pos he, insertPath_metadata_any]
    · rw [if_neg he]

theorem finalRoot_metadata (entries : List ProcessedEntry) :
    (finalRoot entries).metadata = none := by
  show (buildRoot entries).metadata = none
  rw [buildRoot, buildFold_metadata]
  rfl

/-! ### The invariant bundle for trees built from well-formed entries -/

theorem finalRoot_invariant (entries : List ProcessedEntry) (hwf : WFEntries entries) :
    (∀ x ∈ (finalRoot entries).children, GoodNode x.2) ∧
    childSumL (finalRoot entries).children = activeTokenSum entries ∧
    (∀ e ∈ entries, entryActive e →
      leafTokensAt (finalRoot entries).children (entryComponents e) =
        some (entryTokens e)) := by
  have hbase := buildFold_invariant entries (TreeNode.withPath "")
    (by intro x hx; simp [TreeNode.withPath, TreeNode.children] at hx)
    (by simp [sortedKeys, TreeNode.withPath, TreeNode.children])
    (by
      intro p hp hsome
      rw [show (TreeNode.withPath "").children = [] from rfl, leafTokensAt_nil_cs] at hsome
      simp at hsome)
    hwf
  have hch : (finalRoot entries).children = (entries.foldl buildStep (TreeNode.withPath "")).children := rfl
  rw [hch]
  refine ⟨hbase.1, ?_, hbase.2.2.2.1⟩
  rw [hbase.2.2.1]
  simp [TreeNode.withPath, TreeNode.children, childSumL]

theorem finalRoot_tokens (entries : List ProcessedEntry) :
    (finalRoot entries).tokens = childSum (finalRoot entries) := rfl

theorem tmDisplayed_le (entries : List ProcessedEntry) (maxLines : Nat)
    (minPercent : ℚ) :
    tmDisplayed entries maxLines minPercent ≤
      cftF (heightFuel entries) (finalRoot entries) := by
  apply displayed_le_cftF
  · intro _; rfl
  · show ∀ c ∈ (buildRoot entries).children, MetaSome c.2
    exact buildRoot_metaSome entries

/-! ### Claim theorems -/

/-- C2: for every tree, total, `min_percent`, and every `max_lines`, the
selection set returned by `select_nodes_to_display` holds at most
`max_lines - 1` paths, and when `max_lines ≤ 1` it is empty — the budget
`max_lines - 1` is computed with saturating subtraction, so no underflow
occurs (in the model, `Nat` subtraction is saturating by definition). -/
theorem selection_budget (fuel : Nat) (root : TreeNode) (total maxLines : Nat)
    (minPercent : ℚ) :
    (selectNodesToDisplay fuel root total maxLines minPercent).length ≤ maxLines - 1 ∧
    (maxLines ≤ 1 → (selectNodesToDisplay fuel root total maxLines minPercent).length = 0) := by
  constructor
  · exact selectLoop_length_le root _ (maxLines - 1) fuel _ [] (Nat.zero_le _)
  · intro h
    have h2 := selectLoop_length_le root (minTokensOf total minPercent) (maxLines - 1)
      fuel (seedHeap root (minTokensOf total minPercent)) [] (Nat.zero_le _)
    have hb : maxLines - 1 = 0 := by omega
    rw [hb] at h2
    simpa [selectNodesToDisplay, hb] using h2

/-- Witness for C2 at a concrete input. -/
theorem selection_budget_witness :
    (1 : Nat) ≤ 1 ∧
    (selectNodesToDisplay 3 (TreeNode.withPath "") 0 1 0).length = 0 :=
  ⟨by decide, (selection_budget 3 (TreeNode.withPath "") 0 1 0).2 (by decide)⟩

/-- C5: the pipeline is a pure function, so running selection and
rendering twice on the same input gives identical row sequences; and the
renderer reads the selection set only through key membership, so any two
selection-set representations with the same membership (the situation a
hash map with nondeterministic iteration order would create) produce
identical rows. -/
theorem tokenMap_deterministic :
    (∀ (entries : List ProcessedEntry) (maxLines : Option Nat) (minPercent : Option ℚ),
      generateTokenMapWithLimit entries maxLines minPercent =
        generateTokenMapWithLimit entries maxLines minPercent) ∧
    (∀ (fuel : Nat) (node : TreeNode) (curPath : String)
      (a1 a2 : List (String × Nat)) (depth total : Nat) (isLast : Bool),
      (∀ p, allowedHas a1 p = allowedHas a2 p) →
      rebuildF fuel node curPath a1 depth total isLast =
        rebuildF fuel node curPath a2 depth total isLast) :=
  ⟨fun _ _ _ => rfl, rebuildF_allowed_congr⟩

/-- Witness for C5: two differently-represented selection sets with equal
membership give the same rows. -/
theorem tokenMap_deterministic_witness :
    rebuildF 2 (TreeNode.withPath "") "" [("a", 0)] 0 0 true =
      rebuildF 2 (TreeNode.withPath "") "" [("a", 5)] 0 0 true :=
  tokenMap_deterministic.2 2 (TreeNode.withPath "") "" [("a", 0)] [("a", 5)] 0 0 true
    (fun _ => rfl)

/-- C6 counterexample: among two candidates with equal tokens and equal
depth, the heap pops the lexicographically GREATER path first ("b" before
"a"), not ascending lexicographic order as claimed. -/
theorem nodePriority_pop_cex :
    popMax [⟨5, "a", 0⟩, ⟨5, "b", 0⟩] = some (⟨5, "b", 0⟩, [⟨5, "a", 0⟩]) ∧
    strLt "a" "b" = true := by decide

/-- C6 (amended): the priority comparison pops higher tokens first, then
shallower depth, and among equal tokens and depth the lexicographically
greater path first (descending path order); `popMax` always returns a
maximum for this order, and the order is total with equality exactly at
identical candidates. -/
theorem nodePriority_order_amended :
    (∀ a b : NodePriority, nodeCmp a b = .gt ↔
      (b.tokens < a.tokens ∨ (a.tokens = b.tokens ∧ a.depth < b.depth) ∨
        (a.tokens = b.tokens ∧ a.depth = b.depth ∧ strLt b.path a.path = true))) ∧
    (∀ a b : NodePriority, nodeCmp a b = .eq ↔ a = b) ∧
    (∀ (h : List NodePriority) (m : NodePriority) (rest : List NodePriority),
      popMax h = some (m, rest) → ∀ x ∈ h, nodeCmp m x ≠ .lt) :=
  ⟨nodeCmp_gt_iff, nodeCmp_eq_iff, fun _ _ _ hp => popMax_max hp⟩

/-- Witness for C6 (amended) at a concrete heap. -/
theorem nodePriority_order_amended_witness :
    popMax [⟨1, "a", 0⟩] = some (⟨1, "a", 0⟩, []) ∧
    nodeCmp ⟨1, "a", 0⟩ ⟨1, "a", 0⟩ ≠ .lt :=
  ⟨by decide,
    nodePriority_order_amended.2.2 [⟨1, "a", 0⟩] ⟨1, "a", 0⟩ [] (by decide)
      ⟨1, "a", 0⟩ (by decide)⟩

/-- C7 counterexample: tree construction does NOT skip empty path
components — building from "a//b" creates a node with the empty name
(reachable as ["a", ""]), while building from "a/b" does not. -/
theorem pathLookup_empty_components_cex :
    (nodeAtPath (finalRoot [⟨"a//b", true, some 5⟩]).children ["a", ""]).isSome = true ∧
    (nodeAtPath (finalRoot [⟨"a/b", true, some 5⟩]).children ["a", ""]).isSome = false := by
  decide

/-- C7 (amended): it is path LOOKUP (`find_node_by_path`), not tree
construction, that skips empty components per-component: the walk over a
component list equals the plain walk over the list with empty components
removed, and `find_node_by_path` performs exactly this walk on the split
path for every non-empty path string. -/
theorem pathLookup_skips_empty_amended :
    (∀ (node : TreeNode) (comps : List String),
      walkSkipEmpty node comps = walkNodes node (comps.filter fun s => !(s == ""))) ∧
    (∀ (node : TreeNode) (pathStr : String), pathStr ≠ "" →
      findNodeByPath node pathStr = walkSkipEmpty node (splitSlash pathStr)) := by
  constructor
  · intro node comps
    exact walkSkipEmpty_filter comps node
  · intro node pathStr h
    rw [findNodeByPath, if_neg h]

/-- Witness for C7 (amended) at a concrete path. -/
theorem pathLookup_skips_empty_amended_witness :
    ("a//b" : String) ≠ "" ∧
    findNodeByPath (TreeNode.withPath "") "a//b" =
      walkSkipEmpty (TreeNode.withPath "") (splitSlash "a//b") :=
  ⟨by decide, pathLookup_skips_empty_amended.2 (TreeNode.withPath "") "a//b" (by decide)⟩

/-- C10: the hierarchical bar always has exactly `bar_width` characters,
for every parent bar, depth, and non-negative percentage (even above
100); for `bar_width = 0` it is the empty string. -/
theorem bar_width_exact (W : Nat) (parent : String) (p : ℚ) (d : Nat)
    (hp : 0 ≤ p) :
    (generateHierarchicalBar W parent p d).length = W ∧
    (W = 0 → generateHierarchicalBar W parent p d = "") := by
  constructor
  · exact generateHierarchicalBar_length W parent p d
  · intro h
    rw [generateHierarchicalBar, if_pos h]

/-- Witness for C10 at a concrete out-of-range percentage. -/
theorem bar_width_exact_witness :
    (0 : ℚ) ≤ 250 ∧
    ((generateHierarchicalBar 4 "██" 250 1).length = 4 ∧
      ((4 : Nat) = 0 → generateHierarchicalBar 4 "██" 250 1 = "")) :=
  ⟨by norm_num, bar_width_exact 4 "██" 250 1 (by norm_num)⟩

/-- C9 counterexample: the shade character is NOT selected by a rotating
`depth.max(1) % 4` key — depths 5 and 1 have equal keys (`5 % 4 = 1`) yet
render differently; and a position over an unfilled parent position is
not blank: it copies the parent character (here '░'). -/
theorem bar_shading_cex :
    (max 5 1) % 4 = (max 1 1) % 4 ∧
    generateHierarchicalBar 2 "█░" 0 5 ≠ generateHierarchicalBar 2 "█░" 0 1 ∧
    (generateHierarchicalBar 2 "█░" 0 1).data.get? 1 = some '░' := by decide

/-- C9 (amended): the number of solid-fill characters is
`min (round (percentage / 100 * bar_width)) bar_width`; every remaining
position copies the parent bar's character, replacing a solid parent
character by the depth's shade character (blank only past the parent
bar's end); and the shade character is clamped by depth — space at depth
≤ 1, then '░', '▒', and '▓' for every depth ≥ 4 — not rotated modulo 4. -/
theorem bar_fill_amended (W : Nat) (parent : String) (p : ℚ) (d : Nat)
    (hp : 0 ≤ p) :
    ((generateHierarchicalBar W parent p d).data.count '█' =
      min ((round (p / 100 * (W : ℚ))).toNat) W) ∧
    (∀ i, i < W → ¬ i < (round (p / 100 * (W : ℚ))).toNat →
      (generateHierarchicalBar W parent p d).data.get? i = some
        (match parent.data.get? i with
         | some pc => if pc = '█' then shadeOf d else pc
         | none => ' ')) ∧
    shadeOf d = (if d ≤ 1 then ' ' else if d = 2 then '░' else if d = 3 then '▒' else '▓') := by
  refine ⟨?_, ?_, shadeOf_spec d⟩
  · rw [← filledOf_eq]
    exact generateHierarchicalBar_count W parent p d
  · intro i hiW hfill
    rw [generateHierarchicalBar_get W parent p d i hiW]
    rw [← filledOf_eq] at hfill
    rw [if_neg hfill]

/-- Witness for C9 (amended) at a concrete bar. -/
theorem bar_fill_amended_witness :
    (0 : ℚ) ≤ 50 ∧
    (((generateHierarchicalBar 6 "████  " 50 2).data.count '█' =
        min ((round ((50 : ℚ) / 100 * (6 : ℚ))).toNat) 6) ∧
      (∀ i, i < 6 → ¬ i < (round ((50 : ℚ) / 100 * (6 : ℚ))).toNat →
        (generateHierarchicalBar 6 "████  " 50 2).data.get? i = some
          (match ("████  " : String).data.get? i with
           | some pc => if pc = '█' then shadeOf 2 else pc
           | none => ' ')) ∧
      shadeOf 2 = (if 2 ≤ 1 then ' ' else if 2 = 2 then '░' else if 2 = 3 then '▒' else '▓')) :=
  ⟨by norm_num, bar_fill_amended 6 "████  " 50 2 (by norm_num)⟩

/-- C3: the renderer appends the final synthetic "(other files)" row —
with name and path "(other files)", tokens `hidden_tokens`, percentage
`hidden_tokens / total_tokens * 100`, depth 0, `is_last`, file metadata —
exactly when `hidden_tokens > 0` and `total_tokens > 0`; and whenever
`total_tokens > 0`, `displayed_tokens + hidden_tokens` equals
`calculate_file_tokens` of the tree (the file-node token total). -/
theorem tokenMap_other_row (entries : List ProcessedEntry) (mlO : Option Nat)
    (mpO : Option ℚ) :
    (0 < tmHidden entries (mlO.getD 20) (mpO.getD (1 / 10)) ∧ 0 < totalTokens entries →
      generateTokenMapWithLimit entries mlO mpO =
        tmBaseRows entries (mlO.getD 20) (mpO.getD (1 / 10)) ++
          [{ path := "(other files)", name := "(other files)",
             tokens := tmHidden entries (mlO.getD 20) (mpO.getD (1 / 10)),
             percentage := (tmHidden entries (mlO.getD 20) (mpO.getD (1 / 10)) : ℚ) /
               (totalTokens entries : ℚ) * 100,
             depth := 0, is_last := true, metadata := ⟨false, false⟩ }]) ∧
    (¬ (0 < tmHidden entries (mlO.getD 20) (mpO.getD (1 / 10)) ∧ 0 < totalTokens entries) →
      generateTokenMapWithLimit entries mlO mpO =
        tmBaseRows entries (mlO.getD 20) (mpO.getD (1 / 10))) ∧
    (0 < totalTokens entries →
      tmDisplayed entries (mlO.getD 20) (mpO.getD (1 / 10)) +
        tmHidden entries (mlO.getD 20) (mpO.getD (1 / 10)) =
        cftF (heightFuel entries) (finalRoot entries)) := by
  refine ⟨?_, ?_, ?_⟩
  · intro h
    show generateCore entries _ _ = _
    rw [generateCore, if_pos h]
    congr 1
    simp [otherRow, ratioPct_eq]
  · intro h
    show generateCore entries _ _ = _
    rw [generateCore, if_neg h]
    simp
  · intro _
    have hle := tmDisplayed_le entries (mlO.getD 20) (mpO.getD (1 / 10))
    unfold tmHidden
    omega

/-- Witness for C3's completeness equation at a concrete input with a
non-empty hidden remainder. -/
theorem tokenMap_other_row_witness :
    0 < totalTokens [⟨"a", true, some 5⟩, ⟨"b", true, some 5⟩, ⟨"c", true, some 5⟩] ∧
    tmDisplayed [⟨"a", true, some 5⟩, ⟨"b", true, some 5⟩, ⟨"c", true, some 5⟩] 2 (mkRat 1 10) +
      tmHidden [⟨"a", true, some 5⟩, ⟨"b", true, some 5⟩, ⟨"c", true, some 5⟩] 2 (mkRat 1 10) =
      cftF (heightFuel [⟨"a", true, some 5⟩, ⟨"b", true, some 5⟩, ⟨"c", true, some 5⟩])
        (finalRoot [⟨"a", true, some 5⟩, ⟨"b", true, some 5⟩, ⟨"c", true, some 5⟩]) :=
  ⟨by decide,
    (tokenMap_other_row [⟨"a", true, some 5⟩, ⟨"b", true, some 5⟩, ⟨"c", true, some 5⟩]
      (some 2) (some (mkRat 1 10))).2.2 (by decide)⟩

/-- C1 counterexample: with duplicate entries ("a" twice) the root total
is 5 while the sum of the active entries' counts is 10; and with
overlapping paths "a/b", "a", "a/c" the node at ["a"] ends up a directory
node whose tokens (5) differ from the sum of its children's tokens (7) —
so over arbitrary entry lists the claimed invariants fail. -/
theorem tokenMap_aggregation_cex :
    (childSum (finalRoot [⟨"a", true, some 5⟩, ⟨"a", true, some 5⟩]),
      activeTokenSum [⟨"a", true, some 5⟩, ⟨"a", true, some 5⟩]) = (5, 10) ∧
    ((nodeAtPath (finalRoot [⟨"a/b", true, some 5⟩, ⟨"a", true, some 3⟩,
        ⟨"a/c", true, some 2⟩]).children ["a"]).map
      fun n => (n.metadata, n.tokens, childSum n)) =
      some (some ⟨true, false⟩, 5, 7) := by decide

/-- C1 (amended): for every entry list whose active file paths are
pairwise non-overlapping — no duplicates and no path a component-wise
initial segment of another, as in any real directory listing — after
construction every non-root node satisfies the aggregation invariant
(`GoodNode`: a directory's tokens equal the sum of its children's tokens
recursively and it has children; a file node is a leaf with its assigned
count — never both contributors), the root's tokens equal the sum of its
children's tokens, that sum equals the total of the active entries'
counts, and the file node at each active entry's path carries exactly
that entry's count. -/
theorem tokenMap_aggregation_amended (entries : List ProcessedEntry)
    (hwf : WFEntries entries) :
    (∀ x ∈ (finalRoot entries).children, GoodNode x.2) ∧
    (finalRoot entries).tokens = childSum (finalRoot entries) ∧
    childSum (finalRoot entries) = activeTokenSum entries ∧
    (∀ e ∈ entries, entryActive e →
      leafTokensAt (finalRoot entries).children (entryComponents e) =
        some (entryTokens e)) := by
  have h := finalRoot_invariant entries hwf
  exact ⟨h.1, finalRoot_tokens entries, h.2.1, h.2.2⟩

/-- Witness for C1 (amended) at a concrete well-formed entry list. -/
theorem tokenMap_aggregation_amended_witness :
    WFEntries [⟨"a/b", true, some 5⟩, ⟨"a/c", true, some 2⟩, ⟨"d", true, some 3⟩] ∧
    ((∀ x ∈ (finalRoot [⟨"a/b", true, some 5⟩, ⟨"a/c", true, some 2⟩,
        ⟨"d", true, some 3⟩]).children, GoodNode x.2) ∧
      (finalRoot [⟨"a/b", true, some 5⟩, ⟨"a/c", true, some 2⟩,
        ⟨"d", true, some 3⟩]).tokens =
        childSum (finalRoot [⟨"a/b", true, some 5⟩, ⟨"a/c", true, some 2⟩,
          ⟨"d", true, some 3⟩]) ∧
      childSum (finalRoot [⟨"a/b", true, some 5⟩, ⟨"a/c", true, some 2⟩,
        ⟨"d", true, some 3⟩]) =
        activeTokenSum [⟨"a/b", true, some 5⟩, ⟨"a/c", true, some 2⟩,
          ⟨"d", true, some 3⟩] ∧
      (∀ e ∈ ([⟨"a/b", true, some 5⟩, ⟨"a/c", true, some 2⟩,
          ⟨"d", true, some 3⟩] : List ProcessedEntry), entryActive e →
        leafTokensAt (finalRoot [⟨"a/b", true, some 5⟩, ⟨"a/c", true, some 2⟩,
          ⟨"d", true, some 3⟩]).children (entryComponents e) =
          some (entryTokens e))) :=
  ⟨by unfold WFEntries; decide,
    tokenMap_aggregation_amended _ (by unfold WFEntries; decide)⟩

/-- C4 counterexample: with the overlapping entry list "a/b" (5 tokens)
then "a" (3 tokens) the emitted map contains a row whose percentage
exceeds 100 (the node "a/b" holds 5 tokens against a total of 3). -/
theorem tokenMap_percentage_cex :
    ((generateTokenMapWithLimit [⟨"a/b", true, some 5⟩, ⟨"a", true, some 3⟩]
      (some 20) (some (mkRat 1 10))).any fun r => decide (100 < r.percentage)) = true := by
  decide

/-- C4 (amended): for every entry list whose active file paths are
pairwise non-overlapping and every configuration, every emitted row of
the token map — the synthetic "(other files)" row included — has a
percentage in [0, 100]. -/
theorem tokenMap_percentage_bounds_amended (entries : List ProcessedEntry)
    (mlO : Option Nat) (mpO : Option ℚ) (hwf : WFEntries entries) :
    ∀ row ∈ generateTokenMapWithLimit entries mlO mpO,
      0 ≤ row.percentage ∧ row.percentage ≤ 100 := by
  intro row hrow
  have hinv := finalRoot_invariant entries hwf
  have htotal : childSumL (finalRoot entries).children = totalTokens entries := rfl
  simp only [generateTokenMapWithLimit, generateCore] at hrow
  rcases List.mem_append.mp hrow with hrow | hrow
  · simp only [tmBaseRows] at hrow
    have hpct := rebuildF_row_percentage _ _ _ _ _ _ _ row hrow
    have htok := rebuildF_row_tokens_le (heightFuel entries) (totalTokens entries)
      (finalRoot entries) "" _ 0 (totalTokens entries) true
      (le_of_eq rfl) hinv.1
      (fun c hc => le_trans (le_childSumL hc) (le_of_eq htotal)) row hrow
    rw [hpct]
    by_cases hpos : 0 < totalTokens entries
    · rw [if_pos hpos]
      exact ratioPct_bounds htok hpos
    · rw [if_neg hpos]
      constructor
      · norm_num
      · norm_num
  · by_cases hcond : 0 < tmHidden entries (mlO.getD 20) (mpO.getD (1 / 10)) ∧
        0 < totalTokens entries
    · rw [if_pos hcond] at hrow
      rcases List.mem_singleton.mp hrow with rfl
      show 0 ≤ ratioPct _ _ ∧ ratioPct _ _ ≤ 100
      have hhid : tmHidden entries (mlO.getD 20) (mpO.getD (1 / 10)) ≤
          totalTokens entries := by
        have h1 : cftF (heightFuel entries) (finalRoot entries) ≤
            childSumL (finalRoot entries).children :=
          cftF_root_le _ _ (finalRoot_metadata entries) hinv.1
        rw [htotal] at h1
        unfold tmHidden
        omega
      exact ratioPct_bounds hhid hcond.2
    · rw [if_neg hcond] at hrow
      simp at hrow

/-- Witness for C4 (amended) at a concrete well-formed entry list. -/
theorem tokenMap_percentage_bounds_amended_witness :
    WFEntries [⟨"a/b", true, some 5⟩, ⟨"a/c", true, some 2⟩] ∧
    (∀ row ∈ generateTokenMapWithLimit [⟨"a/b", true, some 5⟩, ⟨"a/c", true, some 2⟩]
        (some 20) (some (mkRat 1 10)),
      0 ≤ row.percentage ∧ row.percentage ≤ 100) :=
  ⟨by unfold WFEntries; decide,
    tokenMap_percentage_bounds_amended _ (some 20) (some (mkRat 1 10))
      (by unfold WFEntries; decide)⟩

/-- C8: the spec's concrete scenario 2 — fifty single-component files of
10 tokens each (total 500) with `max_lines = 5` and `min_percent = 0.1`:
`min_tokens` is 1, all fifty files qualify as candidates (the seeded
queue holds 50 entries), exactly four nodes are admitted, and the fifth
and final emitted row is "(other files)" with 460 tokens and percentage
92. -/
theorem tokenMap_scenario50 :
    (mkRat 1 10 : ℚ) = 1 / 10 ∧
    totalTokens scenarioEntries = 500 ∧
    minTokensOf 500 (mkRat 1 10) = 1 ∧
    (seedHeap (finalRoot scenarioEntries) 1).length = 50 ∧
    (tmAllowed scenarioEntries 5 (mkRat 1 10)).length = 4 ∧
    generateTokenMapWithLimit scenarioEntries (some 5) (some (mkRat 1 10)) =
      [⟨"f56", "f56", 10, 2, 1, false, ⟨false, false⟩⟩,
       ⟨"f57", "f57", 10, 2, 1, false, ⟨false, false⟩⟩,
       ⟨"f58", "f58", 10, 2, 1, false, ⟨false, false⟩⟩,
       ⟨"f59", "f59", 10, 2, 1, true, ⟨false, false⟩⟩,
       ⟨"(other files)", "(other files)", 460, 92, 0, true, ⟨false, false⟩⟩] := by
  refine ⟨by norm_num [Rat.mkRat_eq_div], by decide, by decide, by decide, by decide,
    by decide⟩
